import Mathlib

/-!
# influxdb-gops: metric extraction from `gops` output

A shallow embedding of `src/main.go` (package `main`): the metric registries
`MemMetrics` and `StatsMetrics`, the field parser `Metric.SetFields`, the
two point assemblers `memstatsPoints` and `statsPoints`, and the collection
loop of `_main` with `execGops` and `isRunning`.

Conventions of the embedding.

* A Go `string` is a `Str`, a list of characters (the code points of the
  UTF-8 text).
* A Go `float64` is an `F64`: a finite binary64 value `±m·2^e`, an infinity
  or NaN.  All rounding is done on exact integers and fractions
  (`F64.roundQ`), so no hardware floating point enters the development.
* A Go `map[string]interface{}` holding `float64` values is a `Fields`, an
  association list with at most one entry per key.
* A run of `_main` is the list of what it does to its collaborators (the
  `gops` invocation, the liveness check, the sink), which are given by
  cycle in a `World`, and how it ends.
* The standard-library functions that `SetFields` calls
  (`strconv.ParseFloat`, `regexp.FindString`, `strings.Split`,
  `time.Parse`, `time.ParseDuration`) are embedded from their Go
  definitions, next to the function that calls them.
-/

namespace InfluxGops

/-- A Go string, as the list of its characters. -/
abbrev Str := List Char

/-! ## binary64 -/

/-- A `float64` value.  `fin neg m e` is the finite value `(-1)^neg · m · 2^e`;
values produced by `F64.roundQ` have `m` odd, or `m = 0` and `e = 0`, so that
equal numbers are equal terms (the two zeros differ by `neg`). -/
inductive F64 where
  | fin (neg : Bool) (m : Nat) (e : Int)
  | inf (neg : Bool)
  | nan
  deriving DecidableEq, Repr, Inhabited

namespace F64

/-- The float `+0`. -/
def zero : F64 := fin false 0 0

/-- `math.IsNaN`. -/
def isNaN : F64 → Bool
  | nan => true
  | _ => false

/-- `math.IsInf(f, 0)`. -/
def isInf : F64 → Bool
  | inf _ => true
  | _ => false

/-- The value is a finite number. -/
def isFinite : F64 → Bool
  | fin _ _ _ => true
  | _ => false

/-- The exact rational value of a finite float. -/
def toRat : F64 → Option ℚ
  | fin neg m e => some ((if neg then -1 else 1) * (m : ℚ) * (2 : ℚ) ^ e)
  | _ => none

/-- Number of binary digits of `n`, computed with `fuel` halvings. -/
def bitLenAux : Nat → Nat → Nat
  | 0, _ => 0
  | fuel + 1, n => if n = 0 then 0 else bitLenAux fuel (n / 2) + 1

/-- Number of binary digits of `n` (`0` for `0`). -/
def bitLen (n : Nat) : Nat := bitLenAux n n

/-- Remove factors of two from the mantissa, at most `fuel` of them. -/
def stripTwos : Nat → Nat → Int → Nat × Int
  | 0, m, e => (m, e)
  | fuel + 1, m, e =>
    if m % 2 = 0 ∧ m ≠ 0 then stripTwos fuel (m / 2) (e + 1) else (m, e)

/-- The finite float `±m·2^e` in normal form (odd mantissa, or zero). -/
def normal (neg : Bool) (m : Nat) (e : Int) : F64 :=
  if m = 0 then fin neg 0 0
  else
    let r := stripTwos 64 m e
    fin neg r.1 r.2

/-- `⌊log₂ (n/d)⌋` for `n, d > 0`. -/
def floorLog2 (n d : Nat) : Int :=
  let k : Int := (bitLen n : Int) - (bitLen d : Int)
  let ge : Bool := if 0 ≤ k then decide (d * 2 ^ k.toNat ≤ n) else decide (d ≤ n * 2 ^ (-k).toNat)
  if ge then k else k - 1

/-- Round the fraction `n/d` (`d > 0`), with sign `neg`, to the nearest
binary64 value, ties to even (IEEE 754 `roundTiesToEven`): 53 significant
bits, least exponent `-1074` (gradual underflow), overflow to infinity from
`2^1024 - 2^970` on. -/
def roundQ (neg : Bool) (n d : Nat) : F64 :=
  if n = 0 then fin neg 0 0
  else
    let e : Int := max (floorLog2 n d - 52) (-1074)
    let num : Nat := if 0 ≤ e then n else n * 2 ^ (-e).toNat
    let den : Nat := if 0 ≤ e then d * 2 ^ e.toNat else d
    let q := num / den
    let r := num % den
    let m := if 2 * r < den then q else if den < 2 * r then q + 1 else if q % 2 = 0 then q else q + 1
    if 971 < e ∨ (e = 971 ∧ m = 2 ^ 53) then inf neg else normal neg m e

/-- Conversion `float64(x)` of a Go integer. -/
def ofInt (x : Int) : F64 := roundQ (decide (x < 0)) x.natAbs 1

/-- Conversion `float64(x)` of a non-negative Go integer. -/
def ofNat (x : Nat) : F64 := roundQ false x 1

/-- Float division `a / b` of IEEE 754. -/
def div : F64 → F64 → F64
  | nan, _ => nan
  | _, nan => nan
  | inf _, inf _ => nan
  | inf s, fin t _ _ => inf (s != t)
  | fin s _ _, inf t => fin (s != t) 0 0
  | fin s m e, fin t k g =>
    if k = 0 then (if m = 0 then nan else inf (s != t))
    else roundQ (s != t) (m * 2 ^ (e - g).toNat) (k * 2 ^ (g - e).toNat)

/-- Float multiplication `a * b` of IEEE 754. -/
def mul : F64 → F64 → F64
  | nan, _ => nan
  | _, nan => nan
  | inf s, inf t => inf (s != t)
  | inf s, fin t k _ => if k = 0 then nan else inf (s != t)
  | fin s m _, inf t => if m = 0 then nan else inf (s != t)
  | fin s m e, fin t k g =>
    roundQ (s != t) (m * k * 2 ^ (e + g).toNat) (2 ^ (-(e + g)).toNat)

/-- Truncation `uint64(f)` of a finite non-negative float (`0` otherwise). -/
def toUint64 : F64 → Nat
  | fin false m e => if 0 ≤ e then m * 2 ^ e.toNat else m / 2 ^ (-e).toNat
  | _ => 0

end F64

/-! ## Characters and strings -/

/-- The byte test `'0' <= c && c <= '9'`. -/
def isDigit (c : Char) : Bool := decide ('0'.toNat ≤ c.toNat ∧ c.toNat ≤ '9'.toNat)

/-- The value `c - '0'` of a decimal digit. -/
def digitVal (c : Char) : Nat := c.toNat - '0'.toNat

/-- The value of a string of decimal digits, most significant first. -/
def decVal (s : Str) : Nat := s.foldl (fun acc c => acc * 10 + digitVal c) 0

/-- The test `lower(c) == l` of `strconv`, where `lower(c) = c | ('x' - 'X')`
and `l` is a lower-case ASCII letter. -/
def lowerIs (c l : Char) : Bool := (c.toNat ||| 32) == l.toNat

/-- The test `'a' <= lower(c) && lower(c) <= 'f'` of `strconv`. -/
def isHexLetter (c : Char) : Bool :=
  decide (c.toNat < 128 ∧ 'a'.toNat ≤ (c.toNat ||| 32) ∧ (c.toNat ||| 32) ≤ 'f'.toNat)

/-- `unicode.IsSpace`: the code points with the Unicode White_Space property. -/
def isSpace (c : Char) : Bool :=
  let n := c.toNat
  decide ((9 ≤ n ∧ n ≤ 13) ∨ n = 0x20 ∨ n = 0x85 ∨ n = 0xA0 ∨ n = 0x1680 ∨
    (0x2000 ≤ n ∧ n ≤ 0x200A) ∨ n = 0x2028 ∨ n = 0x2029 ∨ n = 0x202F ∨ n = 0x205F ∨
    n = 0x3000)

/-- `strings.TrimSpace`: drop leading and trailing white space. -/
def TrimSpace (s : Str) : Str :=
  ((s.dropWhile isSpace).reverse.dropWhile isSpace).reverse

/-- The part of `s` before the first occurrence of the character `sep` and
the part after it, when `sep` occurs. -/
def cut (sep : Char) : Str → Option (Str × Str)
  | [] => none
  | c :: cs =>
    if c = sep then some ([], cs)
    else match cut sep cs with
      | none => none
      | some (a, b) => some (c :: a, b)

/-- `strings.SplitN(s, ":", 2)`: the whole string when it has no colon, else
the text before the first colon and the text after it. -/
def SplitN2 (s : Str) : List Str :=
  match cut ':' s with
  | none => [s]
  | some (a, b) => [a, b]

/-- `strings.Split(s, " ")[0]`: the text before the first space, or all of `s`. -/
def splitSpaceHead (s : Str) : Str :=
  match cut ' ' s with
  | none => s
  | some (a, _) => a

/-! ## `strconv.ParseFloat(s, 64)` -/

/-- The two `strconv` error kinds. -/
inductive NumError where
  | ErrSyntax
  | ErrRange
  deriving DecidableEq, Repr

/-- `commonPrefixLenIgnoreCase(s, p)` for a lower-case `p`. -/
def commonPrefixLenIgnoreCase : Str → Str → Nat
  | c :: cs, p :: ps =>
    let c1 := if 'A'.toNat ≤ c.toNat ∧ c.toNat ≤ 'Z'.toNat then Char.ofNat (c.toNat + 32) else c
    if c1 = p then commonPrefixLenIgnoreCase cs ps + 1 else 0
  | _, _ => 0

/-- The `"infinity"` branch of `special`: `n` is the number of sign bytes and
`neg` the sign. -/
def specialInf (neg : Bool) (nsign : Nat) (s : Str) : Option (F64 × Nat) :=
  let n0 := commonPrefixLenIgnoreCase s "infinity".toList
  let n := if 3 < n0 ∧ n0 < 8 then 3 else n0
  if n = 3 ∨ n = 8 then some (F64.inf neg, nsign + n) else none

/-- `special(s)`: an optionally signed `inf`/`infinity`, or `nan`, in any
letter case, at the start of `s`; returns the value and the bytes consumed. -/
def special : Str → Option (F64 × Nat)
  | [] => none
  | c :: cs =>
    if c = '+' then specialInf false 1 cs
    else if c = '-' then specialInf true 1 cs
    else if c = 'i' ∨ c = 'I' then specialInf false 0 (c :: cs)
    else if c = 'n' ∨ c = 'N' then
      (if commonPrefixLenIgnoreCase (c :: cs) "nan".toList = 3 then some (F64.nan, 3) else none)
    else none

/-- The loop variables of `readFloat`.  The mantissa is kept in full: where
`readFloat` stops at 19 digits and sets `trunc`, `atof64` falls back on the
whole text, so the digits beyond the 19th count all the same. -/
structure ReadState where
  mantissa : Nat
  sawdot : Bool
  sawdigits : Bool
  nd : Nat
  dp : Int
  underscores : Bool
  deriving DecidableEq, Repr

/-- The digit loop of `readFloat` (`hex` when a `0x` was read); returns the
state at the first character that is not part of the mantissa, and the rest
of the text from there. -/
def readMantissa (hex : Bool) : Str → ReadState → ReadState × Str
  | [], st => (st, [])
  | c :: cs, st =>
    if c = '_' then readMantissa hex cs { st with underscores := true }
    else if c = '.' then
      if st.sawdot then (st, c :: cs)
      else readMantissa hex cs { st with sawdot := true, dp := st.nd }
    else if isDigit c then
      if c = '0' ∧ st.nd = 0 then
        readMantissa hex cs { st with sawdigits := true, dp := st.dp - 1 }
      else
        readMantissa hex cs
          { st with
            sawdigits := true, nd := st.nd + 1,
            mantissa := st.mantissa * (if hex then 16 else 10) + digitVal c }
    else if hex ∧ isHexLetter c then
      readMantissa hex cs
        { st with
          sawdigits := true, nd := st.nd + 1,
          mantissa := st.mantissa * 16 + ((c.toNat ||| 32) - 'a'.toNat + 10) }
    else (st, c :: cs)

/-- The exponent-digit loop of `readFloat`: digits and underscores, the
exponent no longer growing once it has reached 10000. -/
def readExpDigits : Str → Nat → Bool → Nat × Bool × Str
  | [], e, u => (e, u, [])
  | c :: cs, e, u =>
    if c = '_' then readExpDigits cs e true
    else if isDigit c then readExpDigits cs (if e < 10000 then e * 10 + digitVal c else e) u
    else (e, u, c :: cs)

/-- The scan of `underscoreOK` after sign and base are read: `saw` is `'0'`
after a digit or base, `'_'` after an underscore, `'!'` after anything else
and `'^'` at the start. -/
def underscoreScan (hex : Bool) : Str → Char → Bool
  | [], saw => saw != '_'
  | c :: cs, saw =>
    if isDigit c ∨ (hex ∧ isHexLetter c) then underscoreScan hex cs '0'
    else if c = '_' then (if saw != '0' then false else underscoreScan hex cs '_')
    else if saw = '_' then false
    else underscoreScan hex cs '!'

/-- `underscoreOK(s)`: underscores only between digits, or between a base
and a digit. -/
def underscoreOK (s : Str) : Bool :=
  let s1 := match s with
    | c :: cs => if c = '-' ∨ c = '+' then cs else s
    | [] => s
  match s1 with
  | c0 :: c1 :: cs =>
    if c0 = '0' ∧ (lowerIs c1 'b' ∨ lowerIs c1 'o' ∨ lowerIs c1 'x') then
      underscoreScan (lowerIs c1 'x') cs '0'
    else underscoreScan false s1 '^'
  | _ => underscoreScan false s1 '^'

/-- What `readFloat` returns when it accepts: the mantissa, the exponent (of
ten, or of two when `hex`), the sign, and the text left unread. -/
structure ReadFloat where
  mantissa : Nat
  exp : Int
  neg : Bool
  hex : Bool
  rest : Str
  deriving DecidableEq, Repr

/-- The base test of `readFloat`: `i+2 < len(s) && s[i] == '0' &&
lower(s[i+1]) == 'x'`, for the text `s` after the sign. -/
def hasHexPrefix : Str → Bool
  | c0 :: c1 :: _ :: _ => decide (c0 = '0') && lowerIs c1 'x'
  | _ => false

/-- The optional exponent of `readFloat`, read from `s` after the mantissa:
the decimal point moved by it, the `underscores` flag, and the text left
unread; `none` where `readFloat` returns early (an exponent character
without digits, or a hexadecimal mantissa without exponent). -/
def readExponent (hex : Bool) (dp : Int) (underscores : Bool) (s : Str) :
    Option (Int × Bool × Str) :=
  match s with
  | x :: xs =>
    if lowerIs x (if hex then 'p' else 'e') then
      match xs with
      | [] => none
      | y :: ys =>
        let esign : Int := if y = '-' then -1 else 1
        let s4 := if y = '+' ∨ y = '-' then ys else xs
        match s4 with
        | [] => none
        | z :: _ =>
          if !isDigit z then none
          else
            let r := readExpDigits s4 0 underscores
            some (dp + (r.1 : Int) * esign, r.2.1, r.2.2)
    else if hex then none
    else some (dp, underscores, s)
  | [] => if hex then none else some (dp, underscores, s)

/-- The body of `readFloat` after the optional sign: `s` is the whole text,
`s1` the text after the sign. -/
def readFloatBody (s : Str) (neg : Bool) (s1 : Str) : Option ReadFloat :=
  -- base
  let hex := hasHexPrefix s1
  -- digits
  let r := readMantissa hex (if hex then s1.drop 2 else s1) ⟨0, false, false, 0, 0, false⟩
  let st := r.1
  if !st.sawdigits then none
  else
    let dp0 : Int := if st.sawdot then st.dp else st.nd
    let dp1 : Int := if hex then dp0 * 4 else dp0
    let ndMant : Int := if hex then (st.nd : Int) * 4 else st.nd
    -- optional exponent
    match readExponent hex dp1 st.underscores r.2 with
    | none => none
    | some (dp, underscores, rest) =>
      let exp : Int := if st.mantissa ≠ 0 then dp - ndMant else 0
      if underscores ∧ !underscoreOK (s.take (s.length - rest.length)) then none
      else some ⟨st.mantissa, exp, neg, hex, rest⟩

/-- `readFloat(s)`: `none` where the Go function returns `ok = false`. -/
def readFloat (s : Str) : Option ReadFloat :=
  match s with
  | [] => none
  | c :: cs => readFloatBody s (decide (c = '-')) (if c = '+' ∨ c = '-' then cs else s)

/-- The value `±mantissa · b^exp` (`b` ten, or two when `hex`) rounded to
binary64: what `atof64` computes from an accepted text, by whichever of
its paths (exact, Eisel-Lemire, `decimal`, `atofHex`). -/
def floatOf (r : ReadFloat) : F64 :=
  let b : Nat := if r.hex then 2 else 10
  if 0 ≤ r.exp then F64.roundQ r.neg (r.mantissa * b ^ r.exp.toNat) 1
  else F64.roundQ r.neg r.mantissa (b ^ (-r.exp).toNat)

/-- `parseFloatPrefix(s, 64)`: the value, the number of bytes read, and the
error. -/
def parseFloatPrefix (s : Str) : F64 × Nat × Option NumError :=
  match special s with
  | some (v, n) => (v, n, none)
  | none =>
    match readFloat s with
    | none => (F64.zero, 0, some NumError.ErrSyntax)
    | some r =>
      let f := floatOf r
      (f, s.length - r.rest.length, if f.isInf then some NumError.ErrRange else none)

/-- `strconv.ParseFloat(s, 64)`: the nearest binary64 value of a well-formed
text; `0` with `ErrSyntax` for any other text; `±Inf` with `ErrRange` when
the value is out of range. -/
def ParseFloat (s : Str) : F64 × Option NumError :=
  let (f, n, err) := parseFloatPrefix s
  if n ≠ s.length ∧ err ≠ some NumError.ErrSyntax then (F64.zero, some NumError.ErrSyntax)
  else (f, err)

/-! ## `reBytes` -/

/-- A match of the regular expression `[0-9]+ bytes` that starts at the
first character of `s`: the longest run of digits there, which must not be
empty and must be followed by `" bytes"`.  (A shorter run of digits is
followed by a digit, not by the space, so no other match starts there.) -/
def matchBytesAt (s : Str) : Option Str :=
  let ds := s.takeWhile isDigit
  if ds ≠ [] ∧ " bytes".toList.isPrefixOf (s.dropWhile isDigit) then some (ds ++ " bytes".toList)
  else none

/-- `reBytes.FindString(s)` for `reBytes = regexp.MustCompile("[0-9]+ bytes")`:
the text of the leftmost match, or `""` when there is none. -/
def reBytesFindString : Str → Str
  | [] => []
  | c :: cs =>
    match matchBytesAt (c :: cs) with
    | some m => m
    | none => reBytesFindString cs

/-! ## `time.ParseDuration` -/

/-- `leadingInt(s)` of package `time`, continued from the value `x`: the
leading digits as a `uint64` and the rest; `none` for `errLeadingInt`. -/
def leadingInt : Str → Nat → Option (Nat × Str)
  | [], x => some (x, [])
  | c :: cs, x =>
    if !isDigit c then some (x, c :: cs)
    else if x > 2 ^ 63 / 10 then none
    else
      let y := x * 10 + digitVal c
      if y > 2 ^ 63 then none else leadingInt cs y

/-- `leadingFraction(s)` of package `time`, continued from `(x, scale)` and
the `overflow` flag: the digits as a `uint64`, the power of ten that scales
them, and the rest. -/
def leadingFraction : Str → Nat → F64 → Bool → Nat × F64 × Str
  | [], x, scale, _ => (x, scale, [])
  | c :: cs, x, scale, overflow =>
    if !isDigit c then (x, scale, c :: cs)
    else if overflow then leadingFraction cs x scale true
    else if x > (2 ^ 63 - 1) / 10 then leadingFraction cs x scale true
    else
      let y := x * 10 + digitVal c
      if y > 2 ^ 63 then leadingFraction cs x scale true
      else leadingFraction cs y (F64.mul scale (F64.ofNat 10)) false

/-- `unitMap` of package `time`: nanoseconds per unit. -/
def unitMap (u : Str) : Option Nat :=
  if u = "ns".toList then some 1
  else if u = "us".toList then some 1000
  else if u = [Char.ofNat 0xB5, 's'] then some 1000
  else if u = [Char.ofNat 0x3BC, 's'] then some 1000
  else if u = "ms".toList then some 1000000
  else if u = "s".toList then some 1000000000
  else if u = "m".toList then some 60000000000
  else if u = "h".toList then some 3600000000000
  else none

/-- The `for s != ""` loop of `ParseDuration`, `d` being the `uint64` sum so
far: one `number unit` group per round.  Every round reads at least the
unit, so `fuel = len(s)` rounds are never used up. -/
def parseDurationLoop : Nat → Str → Nat → Option Nat
  | 0, s, d => if s = [] then some d else none
  | fuel + 1, s, d =>
    match s with
    | [] => some d
    | c :: _ =>
      if !(c = '.' ∨ isDigit c) then none
      else
        match leadingInt s 0 with
        | none => none
        | some (v, s1) =>
          let pre := decide (s.length ≠ s1.length)
          let (f, scale, post, s2) :=
            match s1 with
            | '.' :: t =>
              let r := leadingFraction t 0 (F64.ofNat 1) false
              (r.1, r.2.1, decide (t.length ≠ r.2.2.length), r.2.2)
            | _ => (0, F64.ofNat 1, false, s1)
          if !pre ∧ !post then none
          else
            let u := s2.takeWhile (fun x => !(x = '.' ∨ isDigit x))
            let s3 := s2.dropWhile (fun x => !(x = '.' ∨ isDigit x))
            if u = [] then none
            else
              match unitMap u with
              | none => none
              | some unit =>
                if v > 2 ^ 63 / unit then none
                else
                  let v1 := v * unit
                  let v2 :=
                    if f > 0 then
                      (v1 + F64.toUint64 (F64.mul (F64.ofNat f) (F64.div (F64.ofNat unit) scale))) % 2 ^ 64
                    else v1
                  if f > 0 ∧ v2 > 2 ^ 63 then none
                  else
                    let d1 := (d + v2) % 2 ^ 64
                    if d1 > 2 ^ 63 then none else parseDurationLoop fuel s3 d1

/-- `time.ParseDuration(s)`: the duration in nanoseconds (an `int64`), or
`none` where the Go function returns an error. -/
def ParseDuration (s : Str) : Option Int :=
  let neg := match s with
    | c :: _ => decide (c = '-')
    | [] => false
  let s1 := match s with
    | c :: cs => if c = '-' ∨ c = '+' then cs else s
    | [] => s
  if s1 = "0".toList then some 0
  else if s1 = [] then none
  else
    match parseDurationLoop s1.length s1 0 with
    | none => none
    | some d =>
      if neg then some (-(d : Int))
      else if d > 2 ^ 63 - 1 then none
      else some (d : Int)

/-! ## `time.Parse` with the layout `2006-01-02 15:04:05.999999999 -0700 MST` -/

/-- The value of an `int64` computation: `x` reduced to `[-2^63, 2^63)`. -/
def wrapInt64 (x : Int) : Int := (x + 2 ^ 63) % 2 ^ 64 - 2 ^ 63

/-- A `time.Time` as far as `UnixNano` reads it: seconds since the Unix
epoch and nanoseconds within the second. -/
structure Time where
  unixSec : Int
  nsec : Nat
  deriving DecidableEq, Repr

/-- The zero `time.Time{}`, January 1 of year 1, 00:00:00 UTC. -/
def Time.zeroTime : Time := ⟨-62135596800, 0⟩

/-- `t.UnixNano()`: an `int64` product and sum, which wrap around. -/
def Time.UnixNano (t : Time) : Int := wrapInt64 (t.unixSec * 1000000000 + t.nsec)

/-- `getnum(s, fixed)`: one or two leading digits (two when `fixed`). -/
def getnum (s : Str) (fixed : Bool) : Option (Nat × Str) :=
  match s with
  | a :: b :: rest =>
    if !isDigit a then none
    else if !isDigit b then (if fixed then none else some (digitVal a, b :: rest))
    else some (digitVal a * 10 + digitVal b, rest)
  | [a] => if !isDigit a then none else if fixed then none else some (digitVal a, [])
  | [] => none

/-- `skip(value, " ")`: fails when `value` starts with something other than
a space; otherwise drops all leading spaces. -/
def skipSpace (value : Str) : Option Str :=
  match value with
  | c :: _ => if c ≠ ' ' then none else some (value.dropWhile (fun x => x = ' '))
  | [] => some []

/-- `skip(value, p)` for a one-character `p` other than the space. -/
def skipChar (p : Char) (value : Str) : Option Str :=
  match value with
  | c :: cs => if c = p then some cs else none
  | [] => none

/-- `isLeap(year)`. -/
def isLeap (year : Nat) : Bool := year % 4 = 0 ∧ (year % 100 ≠ 0 ∨ year % 400 = 0)

/-- `daysIn(month, year)`. -/
def daysIn (month year : Nat) : Nat :=
  if month = 2 then (if isLeap year then 29 else 28)
  else if month = 4 ∨ month = 6 ∨ month = 9 ∨ month = 11 then 30
  else 31

/-- Days from 1970-01-01 to the given day of the proleptic Gregorian
calendar. -/
def daysFromCivil (year month day : Nat) : Int :=
  let y : Int := if month ≤ 2 then (year : Int) - 1 else year
  let era : Int := y / 400
  let yoe : Int := y - era * 400
  let mp : Int := if month ≤ 2 then (month : Int) + 9 else (month : Int) - 3
  let doy : Int := (153 * mp + 2) / 5 + (day : Int) - 1
  let doe : Int := yoe * 365 + yoe / 4 - yoe / 100 + doy
  era * 146097 + doe - 719468

/-- `Date(year, month, day, hour, min, sec, nsec, UTC)` for fields already
within their ranges. -/
def Date (year month day hour min sec nsec : Nat) : Time :=
  ⟨daysFromCivil year month day * 86400 + (hour * 3600 + min * 60 + sec : Nat), nsec⟩

/-- The fractional-second field `.999999999` of the layout: when `value`
starts with a period or comma and a digit, all digits that follow are
read, the first nine of them giving the nanoseconds (`parseNanoseconds`);
otherwise nothing is read. -/
def parseFrac (value : Str) : Nat × Str :=
  match value with
  | p :: d :: rest =>
    if (p = '.' ∨ p = ',') ∧ isDigit d then
      let ds := (d :: rest).takeWhile isDigit
      let used := ds.take 9
      (decVal used * 10 ^ (9 - used.length), (d :: rest).dropWhile isDigit)
    else (0, value)
  | _ => (0, value)

/-- `parseSignedOffset(value)`: the length of a signed hour offset such as
`+03`, `0` when there is none. -/
def parseSignedOffset (value : Str) : Nat :=
  match value with
  | sign :: t =>
    if sign ≠ '-' ∧ sign ≠ '+' then 0
    else
      match leadingInt t 0 with
      | none => 0
      | some (x, rem) =>
        if t.length = rem.length then 0
        else if x > 23 then 0
        else value.length - rem.length
  | [] => 0

/-- The test `'A' <= c && c <= 'Z'`. -/
def isUpper (c : Char) : Bool := decide ('A'.toNat ≤ c.toNat ∧ c.toNat ≤ 'Z'.toNat)

/-- `parseTimeZone(value)`: the length of the time-zone abbreviation at the
start of `value`, `none` when there is none. -/
def parseTimeZone (value : Str) : Option Nat :=
  if value.length < 3 then none
  else if value.take 4 = "ChST".toList ∨ value.take 4 = "MeST".toList then some 4
  else if value.take 3 = "GMT".toList then
    some (if value.length = 3 then 3 else 3 + parseSignedOffset (value.drop 3))
  else if value.head? = some '+' ∨ value.head? = some '-' then
    (let n := parseSignedOffset value
     if n > 0 then some n else none)
  else
    let nUpper := ((value.take 6).takeWhile isUpper).length
    if nUpper = 5 then (if value.get? 4 = some 'T' then some 5 else none)
    else if nUpper = 4 then
      (if value.get? 3 = some 'T' ∨ value.take 4 = "WITA".toList then some 4 else none)
    else if nUpper = 3 then some 3
    else none

/-- The date fields `2006-01-02` of the layout: a four-digit year, `-`, a
two-digit month in `1..12`, `-`, a two-digit day (checked against the
month at the end of `timeParse`). -/
def parseDateFields (value : Str) : Option (Nat × Nat × Nat × Str) :=
  -- stdLongYear
  if value.length < 4 then none
  else if !(value.take 4).all isDigit then none
  else
    -- stdZeroMonth
    match (skipChar '-' (value.drop 4)).bind (fun v => getnum v true) with
    | none => none
    | some (month, v1) =>
      if month = 0 ∨ 12 < month then none
      else
        -- stdZeroDay
        match (skipChar '-' v1).bind (fun v => getnum v true) with
        | none => none
        | some (day, v2) => some (decVal (value.take 4), month, day, v2)

/-- The clock fields ` 15:04:05.999999999` of the layout: spaces, an hour of
one or two digits below 24, `:`, two-digit minutes below 60, `:`, two-digit
seconds below 60, and the optional fraction. -/
def parseClockFields (value : Str) : Option (Nat × Nat × Nat × Nat × Str) :=
  -- stdHour
  match (skipSpace value).bind (fun v => getnum v false) with
  | none => none
  | some (hour, v1) =>
    if 24 ≤ hour then none
    else
      -- stdZeroMinute
      match (skipChar ':' v1).bind (fun v => getnum v true) with
      | none => none
      | some (min, v2) =>
        if 60 ≤ min then none
        else
          -- stdZeroSecond
          match (skipChar ':' v2).bind (fun v => getnum v true) with
          | none => none
          | some (sec, v3) =>
            if 60 ≤ sec then none
            else
              -- stdFracSecond9
              let r := parseFrac v3
              some (hour, min, sec, r.1, r.2)

/-- The numeric zone field ` -0700` of the layout: spaces, a sign and four
digits; the offset in seconds east of UTC. -/
def parseNumTZ (value : Str) : Option (Int × Str) :=
  match skipSpace value with
  | none => none
  | some v =>
    if v.length < 5 then none
    else
      match getnum ((v.drop 1).take 2) true, getnum ((v.drop 3).take 2) true with
      | some (hr, _), some (mm, _) =>
        if hr > 24 ∨ mm > 60 then none
        else if v.head? = some '+' then some ((((hr * 60 + mm) * 60 : Nat) : Int), v.drop 5)
        else if v.head? = some '-' then some (-(((hr * 60 + mm) * 60 : Nat) : Int), v.drop 5)
        else none
      | _, _ => none

/-- The zone abbreviation field ` MST` of the layout: spaces, then `UTC`
(the flag is `true`) or another abbreviation. -/
def parseTZ (value : Str) : Option (Bool × Str) :=
  match skipSpace value with
  | none => none
  | some v =>
    if v.take 3 = "UTC".toList then some (true, v.drop 3)
    else
      match parseTimeZone v with
      | none => none
      | some n => some (false, v.drop n)

/-- `time.Parse("2006-01-02 15:04:05.999999999 -0700 MST", value)`: `none`
where the Go function returns an error (and the zero `Time`).  The fields
are read left to right as the layout names them, and nothing may follow
the last.  With the abbreviation `UTC` the fields are taken as UTC;
otherwise the numeric offset is subtracted. -/
def timeParse (value : Str) : Option Time :=
  match parseDateFields value with
  | none => none
  | some (year, month, day, v1) =>
    match parseClockFields v1 with
    | none => none
    | some (hour, min, sec, nsec, v2) =>
      match parseNumTZ v2 with
      | none => none
      | some (zoneOffset, v3) =>
        match parseTZ v3 with
        | none => none
        | some (utc, v4) =>
          if v4 ≠ [] then none
          else if day < 1 ∨ day > daysIn month year then none
          else
            let t := Date year month day hour min sec nsec
            if utc then some t else some { t with unixSec := t.unixSec - zoneOffset }

/-! ## `Metric` and the registries -/

/-- The dynamic type of `Metric.Type`, on which `SetFields` switches.  The
registries use these four and no other: `int(0)`, `[]byte{}`, `time.Now()`
and `time.Duration(0)`; the `default:` branch of the switch, which leaves
`any` nil, is not reached for them. -/
inductive Kind where
  | int
  | bytes
  | time
  | duration
  deriving DecidableEq, Repr, Inhabited

/-- A `map[string]interface{}` whose values are `float64`s, as the list of
its entries. -/
abbrev Fields := List (Str × F64)

/-- The map assignment `f[k] = v`. -/
def mapSet : Fields → Str → F64 → Fields
  | [], k, v => [(k, v)]
  | (k0, v0) :: t, k, v => if k0 = k then (k, v) :: t else (k0, v0) :: mapSet t k v

/-- The struct `Metric` (its field `Type` is `Typ` here). -/
structure Metric where
  Typ : Kind
  FieldsKey : Str
  Name : Str
  Fields : Fields
  deriving DecidableEq, Repr, Inhabited

/-- The float constant `1000.`. -/
def thousand : F64 := F64.fin false 125 3

/-- The expression `float64(x) / 1000. / 1000. / 1000.`. -/
def nanosToSeconds (x : Int) : F64 :=
  F64.div (F64.div (F64.div (F64.ofInt x) thousand) thousand) thousand

/-- The value `any` that `SetFields` computes from the raw text `v`; every
error of the parsers is dropped, their returned value being used as it is. -/
def fieldValue (k : Kind) (v : Str) : F64 :=
  match k with
  | Kind.int => (ParseFloat v).1
  | Kind.bytes => (ParseFloat (splitSpaceHead (reBytesFindString v))).1
  | Kind.time => nanosToSeconds ((timeParse v).getD Time.zeroTime).UnixNano
  | Kind.duration => nanosToSeconds ((ParseDuration v).getD 0)

/-- `func (m *Metric) SetFields(v string)`. -/
def Metric.SetFields (m : Metric) (v : Str) : Metric :=
  { m with Fields := [(m.FieldsKey, fieldValue m.Typ v)] }

/-- A registry entry `Metric{Type: …, Name: …, FieldsKey: …}`. -/
def entry (key : String) (t : Kind) (name : String) (fieldsKey : String) : Str × Metric :=
  (key.toList, ⟨t, fieldsKey.toList, name.toList, []⟩)

/-- The map `MemMetrics`, as the list of its entries. -/
def MemMetrics : List (Str × Metric) :=
  [ entry "alloc" Kind.bytes "go_memstats_alloc_bytes" "gauge",
    entry "total-alloc" Kind.bytes "go_memstats_alloc_bytes_total" "counter",
    entry "sys" Kind.bytes "go_memstats_sys_bytes" "gauge",
    entry "lookups" Kind.int "go_memstats_lookups_total" "counter",
    entry "mallocs" Kind.int "go_memstats_mallocs_total" "counter",
    entry "frees" Kind.int "go_memstats_frees_total" "counter",
    entry "heap-alloc" Kind.bytes "go_memstats_heap_alloc_bytes" "gauge",
    entry "heap-sys" Kind.bytes "go_memstats_heap_sys_bytes" "gauge",
    entry "heap-idle" Kind.bytes "go_memstats_heap_idle_bytes" "gauge",
    entry "heap-in-use" Kind.bytes "go_memstats_heap_inuse_bytes" "gauge",
    entry "heap-released" Kind.bytes "go_memstats_heap_released_bytes" "gauge",
    entry "heap-objects" Kind.int "go_memstats_objects" "gauge",
    entry "stack-in-use" Kind.bytes "go_memstats_stack_inuse_bytes" "gauge",
    entry "stack-sys" Kind.bytes "go_memstats_stack_sys_bytes" "gauge",
    entry "gc-pause" Kind.duration "go_gc_duration_seconds" "sum",
    entry "next-gc" Kind.bytes "go_memstats_next_gc_bytes" "gauge",
    entry "last-gc" Kind.time "go_memstats_last_gc_time_seconds" "gauge",
    entry "num-gc" Kind.int "go_gc_duration_seconds" "count" ]

/-- The map `StatsMetrics`, as the list of its entries. -/
def StatsMetrics : List (Str × Metric) :=
  [ entry "goroutines" Kind.int "go_goroutines" "gauge",
    entry "OS threads" Kind.int "go_threads" "gauge" ]

/-- The map index `registry[name]`. -/
def lookupMetric (registry : List (Str × Metric)) (name : Str) : Option Metric :=
  match registry with
  | [] => none
  | (k, m) :: rest => if k = name then some m else lookupMetric rest name

/-! ## Points -/

/-- What a `client.Point` of the InfluxDB client holds. -/
structure Point where
  name : Str
  tags : List (Str × Str)
  fields : Fields
  time : Nat
  deriving DecidableEq, Repr

/-- `client.NewPoint(name, tags, fields, t)` of the InfluxDB client (package
`github.com/influxdata/influxdb/client/v2`, which forwards to
`models.NewPoint`): `none` is the nil `*Point` it returns together with an
error.  As documented there, a point must have at least one field, a field
value must not be NaN or `±Inf`, and a field name must not be empty.  The
time `t` is a reading of the clock and the only tag is the host name, so
the checks of the time range and of the key length are not modelled. -/
def NewPoint (name : Str) (tags : List (Str × Str)) (fields : Fields) (t : Nat) : Option Point :=
  if fields = [] then none
  else if fields.any (fun kv => kv.2.isInf || kv.2.isNaN) then none
  else if fields.any (fun kv => decide (kv.1 = [])) then none
  else some ⟨name, tags, fields, t⟩

/-- How a call of a Go function ends: it returns a value, or it panics on a
nil pointer dereference. -/
inductive Outcome (α : Type) where
  | returns (a : α)
  | panics
  deriving DecidableEq, Repr

/-- The metric name under which the GC fields are grouped. -/
def gcName : Str := "go_gc_duration_seconds".toList

/-- The tag map `map[string]string{"host": hostname}`. -/
def hostTags (hostname : Str) : List (Str × Str) := [("host".toList, hostname)]

/-- The head of both loop bodies (`main.go` lines 174-185 and 214-225): split
the line at its first colon, look the first token up in the registry, and
set the fields from the trimmed second token; `none` where the loop
`continue`s. -/
def matchLine (registry : List (Str × Metric)) (line : Str) : Option Metric :=
  match SplitN2 line with
  | [name, value] =>
    match lookupMetric registry name with
    | none => none
    | some m => some (m.SetFields (TrimSpace value))
  | _ => none

/-- The first loop of `memstatsPoints`, from the state `(pts, fs)` on; `k`
counts the calls of `time.Now()` so far, `now k` being the reading of the
next call.  The loop panics where `pt.Name()` is called on the nil `pt`
of a failed `NewPoint`. -/
def memstatsLoop (hostname : Str) (now : Nat → Nat) :
    List Str → List (Option Point) → List Fields → Nat →
    Outcome (List (Option Point) × List Fields × Nat)
  | [], pts, fs, k => Outcome.returns (pts, fs, k)
  | line :: rest, pts, fs, k =>
    match matchLine MemMetrics line with
    | none => memstatsLoop hostname now rest pts fs k
    | some m =>
      match NewPoint m.Name (hostTags hostname) m.Fields (now k) with
      | none => Outcome.panics
      | some pt =>
        if pt.name = gcName then
          memstatsLoop hostname now rest pts (fs ++ [pt.fields]) (k + 1)
        else
          memstatsLoop hostname now rest (pts ++ [some pt]) fs (k + 1)

/-- The second loop of `memstatsPoints`: every entry of every map of `fs`
is assigned into one map, in order. -/
def mergeFields (fs : List Fields) : Fields :=
  fs.foldl (fun f vv => vv.foldl (fun g kv => mapSet g kv.1 kv.2) f) []

/-- `func memstatsPoints(lines []string) []*client.Point`, given the host
name that `os.Hostname()` returns and the clock readings `now`. -/
def memstatsPoints (hostname : Str) (now : Nat → Nat) (lines : List Str) :
    Outcome (List (Option Point)) :=
  match memstatsLoop hostname now lines [] [] 0 with
  | Outcome.panics => Outcome.panics
  | Outcome.returns (pts, fs, k) =>
    Outcome.returns (pts ++ [NewPoint gcName (hostTags hostname) (mergeFields fs) (now k)])

/-- The loop of `statsPoints`, from the state `pts` on, `k` counting the
calls of `time.Now()`.  A nil `pt` is appended like any other. -/
def statsLoop (hostname : Str) (now : Nat → Nat) :
    List Str → List (Option Point) → Nat → List (Option Point)
  | [], pts, _ => pts
  | line :: rest, pts, k =>
    match matchLine StatsMetrics line with
    | none => statsLoop hostname now rest pts k
    | some m =>
      statsLoop hostname now rest
        (pts ++ [NewPoint m.Name (hostTags hostname) m.Fields (now k)]) (k + 1)

/-- `func statsPoints(lines []string) []*client.Point`, given the host name
and the clock readings. -/
def statsPoints (hostname : Str) (now : Nat → Nat) (lines : List Str) : List (Option Point) :=
  statsLoop hostname now lines [] 0

/-- `strings.Split(s, "\n")`, which `execGops` applies to the output of
`gops`. -/
def splitLines : Str → List Str
  | [] => [[]]
  | c :: cs =>
    match splitLines cs with
    | [] => [[c]]
    | l :: ls => if c = '\n' then [] :: l :: ls else (c :: l) :: ls

/-! ## The collection loop -/

/-- The flags `-p`, `-host` and `-db`.  (The flag `-interval` only sets how
long `time.Sleep` blocks.) -/
structure Config where
  proc : Int
  host : Str
  database : Str
  deriving DecidableEq, Repr, Inhabited

/-- What `exec.Command(…).CombinedOutput()` returns: the output, and the text
`err.Error()` of the error when the command could not be run or exited
non-zero. -/
structure ExecResult where
  output : Str
  err : Option Str
  deriving DecidableEq, Repr, Inhabited

/-- The collaborators of a run.  `gops k subcmd` is the invocation
`gops subcmd pid` of cycle `k`, `ps k` tells whether `ps pid` succeeds in
cycle `k`, `newHTTPClient` and `newBatchPoints` are the errors of the two
constructors of the InfluxDB client (`none` when they succeed), and
`nowMem k` and `nowStats k` are the clock readings during the two
assemblers of cycle `k`. -/
structure World where
  hostname : Str
  nowMem : Nat → Nat → Nat
  nowStats : Nat → Nat → Nat
  newHTTPClient : Option Str
  newBatchPoints : Option Str
  gops : Nat → Str → ExecResult
  ps : Nat → Bool

/-- What a run does to its collaborators, in order. -/
inductive Event where
  | usage
  | newHTTPClient (addr : Str)
  | newBatchPoints (database : Str)
  | sleep
  | gops (subcmd : Str) (pid : Int)
  | ps (pid : Int)
  | write (batch : List (Option Point))
  | close
  deriving DecidableEq, Repr

/-- How a run ends: `_main` returns and `main` prints the error, if any, and
calls `os.Exit(exitCode)`; or `log.Fatal(msg)` prints `msg` and calls
`os.Exit(1)`; or a nil pointer dereference panics; or the loop is still
running after the cycles considered. -/
inductive Ending where
  | returned (exitCode : Int) (err : Option Str)
  | fatal (msg : Str)
  | panicked
  | looping
  deriving DecidableEq, Repr

/-- The exit status of the process (`2` is what the Go runtime exits with
after a panic). -/
def Ending.exitStatus : Ending → Option Int
  | Ending.returned exitCode _ => some exitCode
  | Ending.fatal _ => some 1
  | Ending.panicked => some 2
  | Ending.looping => none

/-- The message that the process logs at its end. -/
def Ending.logged : Ending → Option Str
  | Ending.returned _ err => err
  | Ending.fatal msg => some msg
  | _ => none

/-- How a call of `execGops` ends: in `log.Fatal`, or by returning the lines
and the error. -/
inductive GopsCall where
  | fatal (msg : Str)
  | returns (lines : List Str) (err : Option Str)
  deriving DecidableEq, Repr

/-- `func execGops(subcmd string, pid int) ([]string, error)` in cycle `k`:
`log.Fatal(err)` when the command fails, else the output split at the
newlines, with `err`. -/
def execGops (w : World) (k : Nat) (subcmd : Str) : GopsCall :=
  let r := w.gops k subcmd
  match r.err with
  | some e => GopsCall.fatal e
  | none => GopsCall.returns (splitLines r.output) r.err

/-- `func isRunning(pid int) bool` in cycle `k`. -/
def isRunning (w : World) (k : Nat) : Bool := w.ps k

/-- How one round of the loop ends: the loop goes on, with the points that
`bp` holds then, or the run ends. -/
inductive Step where
  | next (bp : List (Option Point))
  | done (e : Ending)
  deriving DecidableEq, Repr

/-- The handling of a failed invocation in `_main`: `break` when the process
is not running, which leads to `exitCode = 0; err = nil; return`, else
`return exitCode, fmt.Errorf("gops <subcmd>: %s", err.Error())` with the
`exitCode = 2` set at the start. -/
def onGopsError (cfg : Config) (w : World) (k : Nat) (subcmd cause : Str) : List Event × Step :=
  if !isRunning w k then ([Event.ps cfg.proc], Step.done (Ending.returned 0 none))
  else ([Event.ps cfg.proc],
    Step.done (Ending.returned 2 (some ("gops ".toList ++ subcmd ++ ": ".toList ++ cause))))

/-- The second half of the loop body (`main.go` lines 134-140): assemble the
points of both captures, add them to `bp` (`AddPoints` appends to the
points that `bp` holds), and write `bp`.  What the sink makes of the batch,
and the error of `Write`, are not looked at. -/
def assembleAndWrite (w : World) (k : Nat) (bp : List (Option Point))
    (memstats stats : List Str) : List Event × Step :=
  match memstatsPoints w.hostname (w.nowMem k) memstats with
  | Outcome.panics => ([], Step.done Ending.panicked)
  | Outcome.returns mp =>
    let sp := statsPoints w.hostname (w.nowStats k) stats
    let pts := mp ++ sp
    -- bp.AddPoints(pts)
    let bp1 := bp ++ pts
    -- c.Write(bp)
    ([Event.write bp1], Step.next bp1)

/-- One round `k` of the `for` loop of `_main`, entered with the points `bp`
in the batch. -/
def cycle (cfg : Config) (w : World) (k : Nat) (bp : List (Option Point)) : List Event × Step :=
  match execGops w k "memstats".toList with
  | GopsCall.fatal msg =>
    ([Event.sleep, Event.gops "memstats".toList cfg.proc], Step.done (Ending.fatal msg))
  | GopsCall.returns _ (some cause) =>
    let r := onGopsError cfg w k "memstats".toList cause
    ([Event.sleep, Event.gops "memstats".toList cfg.proc] ++ r.1, r.2)
  | GopsCall.returns memstats none =>
    match execGops w k "stats".toList with
    | GopsCall.fatal msg =>
      ([Event.sleep, Event.gops "memstats".toList cfg.proc, Event.gops "stats".toList cfg.proc],
        Step.done (Ending.fatal msg))
    | GopsCall.returns _ (some cause) =>
      let r := onGopsError cfg w k "stats".toList cause
      ([Event.sleep, Event.gops "memstats".toList cfg.proc,
        Event.gops "stats".toList cfg.proc] ++ r.1, r.2)
    | GopsCall.returns stats none =>
      let r := assembleAndWrite w k bp memstats stats
      ([Event.sleep, Event.gops "memstats".toList cfg.proc,
        Event.gops "stats".toList cfg.proc] ++ r.1, r.2)

/-- The `for` loop of `_main` from round `k` on, followed for at most `fuel`
rounds. -/
def loop (cfg : Config) (w : World) : Nat → Nat → List (Option Point) → List Event × Ending
  | 0, _, _ => ([], Ending.looping)
  | fuel + 1, k, bp =>
    match cycle cfg w k bp with
    | (events, Step.done e) => (events, e)
    | (events, Step.next bp1) =>
      let r := loop cfg w fuel (k + 1) bp1
      (events ++ r.1, r.2)

/-- The deferred `c.Close()`: it runs when `_main` returns or panics, not
when `log.Fatal` exits the process. -/
def deferredClose : Ending → List Event
  | Ending.returned _ _ => [Event.close]
  | Ending.panicked => [Event.close]
  | _ => []

/-- `func _main() (exitCode int, err error)`, its loop followed for at most
`fuel` rounds: what it does to the collaborators, and how the run ends. -/
def _main (cfg : Config) (w : World) (fuel : Nat) : List Event × Ending :=
  if cfg.proc = 0 ∨ cfg.host = [] ∨ cfg.database = [] then
    ([Event.usage], Ending.returned 2 (some "unkown error".toList))
  else
    match w.newHTTPClient with
    | some e =>
      ([Event.newHTTPClient ("http://".toList ++ cfg.host)], Ending.returned 2 (some e))
    | none =>
      match w.newBatchPoints with
      | some e =>
        ([Event.newHTTPClient ("http://".toList ++ cfg.host),
          Event.newBatchPoints cfg.database, Event.close], Ending.returned 2 (some e))
      | none =>
        let r := loop cfg w fuel 0 []
        ([Event.newHTTPClient ("http://".toList ++ cfg.host),
          Event.newBatchPoints cfg.database] ++ r.1 ++ deferredClose r.2, r.2)

/-- The batches that a run hands to the sink, in order. -/
def writes : List Event → List (List (Option Point))
  | [] => []
  | Event.write batch :: rest => batch :: writes rest
  | _ :: rest => writes rest

/-! ## Notions used to state the properties -/

/-- The integer that a decimal integer string denotes: an optional sign
followed by one or more decimal digits; `none` for any other text. -/
def decimalInt (s : Str) : Option Int :=
  match s with
  | '+' :: N => if N ≠ [] ∧ N.all isDigit then some (decVal N : Int) else none
  | '-' :: N => if N ≠ [] ∧ N.all isDigit then some (-(decVal N : Int)) else none
  | N => if N ≠ [] ∧ N.all isDigit then some (decVal N : Int) else none

/-- The raw text has a part of the shape digits-then-`" bytes"`. -/
def hasByteCount (v : Str) : Prop :=
  ∃ pre ds post : Str, ds ≠ [] ∧ (∀ c ∈ ds, isDigit c = true) ∧
    v = pre ++ ds ++ " bytes".toList ++ post

/-- The line has a colon and its text before the first colon is a key of
the registry. -/
def keepLine (registry : List (Str × Metric)) (line : Str) : Bool :=
  decide (':' ∈ line) && decide (line.takeWhile (fun c => c != ':') ∈ registry.map Prod.fst)

/-- The lines that the loops do not skip, as the metrics they give (fields
set), in input order. -/
def matched (registry : List (Str × Metric)) (lines : List Str) : List Metric :=
  lines.filterMap (matchLine registry)

/-- A world in which every cycle is alike: the invocation of `memstats`
gives `mem`, that of `stats` gives `stats`, `ps` succeeds when `alive`, both
constructors of the client succeed, the host name is `h`, and the clocks of
cycle `k` read `100·k + i` and `100·k + 50 + i` at their `i`-th call. -/
def steadyWorld (mem stats : ExecResult) (alive : Bool) : World where
  hostname := "h".toList
  nowMem := fun k i => 100 * k + i
  nowStats := fun k i => 100 * k + 50 + i
  newHTTPClient := none
  newBatchPoints := none
  gops := fun _ subcmd => if subcmd = "memstats".toList then mem else stats
  ps := fun _ => alive

/-! ## Lemmas on binary64 rounding -/

theorem bitLenAux_bounds (fuel n : Nat) (hf : n ≤ fuel) (hn : 0 < n) :
    2 ^ (F64.bitLenAux fuel n - 1) ≤ n ∧ n < 2 ^ (F64.bitLenAux fuel n) ∧ 0 < F64.bitLenAux fuel n := by
  induction fuel generalizing n with
  | zero => omega
  | succ fuel ih =>
    have hn0 : n ≠ 0 := by omega
    simp only [F64.bitLenAux, hn0, if_false]
    by_cases h2 : n / 2 = 0
    · have h1 : n = 1 := by omega
      subst h1
      cases fuel <;> simp [F64.bitLenAux]
    · have hpos : 0 < n / 2 := Nat.pos_of_ne_zero h2
      obtain ⟨h_lo, h_hi, h_pos⟩ := ih (n / 2) (by omega) hpos
      refine ⟨?_, ?_, by omega⟩
      · have : F64.bitLenAux fuel (n / 2) + 1 - 1 = (F64.bitLenAux fuel (n / 2) - 1) + 1 := by omega
        rw [this, pow_succ]
        omega
      · rw [pow_succ]
        omega

theorem bitLen_bounds (n : Nat) (hn : 0 < n) :
    2 ^ (F64.bitLen n - 1) ≤ n ∧ n < 2 ^ (F64.bitLen n) ∧ 0 < F64.bitLen n :=
  bitLenAux_bounds n n (le_refl n) hn

theorem bitLen_le_of_lt_pow (n k : Nat) (hn : 0 < n) (h : n < 2 ^ k) : F64.bitLen n ≤ k := by
  obtain ⟨h_lo, _, h_pos⟩ := bitLen_bounds n hn
  by_contra hc
  have : k ≤ F64.bitLen n - 1 := by omega
  have := Nat.pow_le_pow_right (show 0 < 2 by norm_num) this
  omega

theorem stripTwos_value (fuel m : Nat) (e : Int) :
    ((F64.stripTwos fuel m e).1 : ℚ) * (2 : ℚ) ^ (F64.stripTwos fuel m e).2 = (m : ℚ) * (2 : ℚ) ^ e := by
  induction fuel generalizing m e with
  | zero => simp [F64.stripTwos]
  | succ fuel ih =>
    simp only [F64.stripTwos]
    split_ifs with h
    · rw [ih]
      obtain ⟨k, hk⟩ : ∃ k, m = 2 * k := ⟨m / 2, by omega⟩
      subst hk
      rw [Nat.mul_div_cancel_left k (by norm_num : 0 < 2)]
      rw [zpow_add_one₀ (by norm_num : (2 : ℚ) ≠ 0)]
      push_cast
      ring
    · rfl

theorem toRat_normal (neg : Bool) (m : Nat) (e : Int) :
    F64.toRat (F64.normal neg m e) = some ((if neg then -1 else 1) * (m : ℚ) * (2 : ℚ) ^ e) := by
  by_cases h : m = 0
  · subst h; simp [F64.normal, F64.toRat]
  · simp only [F64.normal, h, if_false, F64.toRat]
    rw [mul_assoc, stripTwos_value, mul_assoc]

theorem floorLog2_one (n : Nat) (hn : 0 < n) : F64.floorLog2 n 1 = (F64.bitLen n : Int) - 1 := by
  obtain ⟨h_lo, _, h_pos⟩ := bitLen_bounds n hn
  have h1 : F64.bitLen 1 = 1 := by decide
  unfold F64.floorLog2
  simp only [h1]
  have hk : (0 : Int) ≤ (F64.bitLen n : Int) - ((1 : Nat) : Int) := by omega
  have ht : ((F64.bitLen n : Int) - ((1 : Nat) : Int)).toNat = F64.bitLen n - 1 := by omega
  simp only [hk, if_true, ht, one_mul, decide_eq_true h_lo]
  simp

theorem toRat_roundQ_of_lt (neg : Bool) (n : Nat) (h : n < 2 ^ 53) :
    F64.toRat (F64.roundQ neg n 1) = some ((if neg then -1 else 1) * (n : ℚ)) := by
  by_cases hn : n = 0
  · subst hn; simp [F64.roundQ, F64.toRat]
  have hpos : 0 < n := Nat.pos_of_ne_zero hn
  obtain ⟨h_lo, _, h_pos⟩ := bitLen_bounds n hpos
  have hle := bitLen_le_of_lt_pow n 53 hpos h
  unfold F64.roundQ
  simp only [hn, if_false, floorLog2_one n hpos]
  have he : max ((F64.bitLen n : Int) - 1 - 52) (-1074) = (F64.bitLen n : Int) - 53 := by omega
  simp only [he]
  by_cases h53 : F64.bitLen n = 53
  · have hz : (0 : Int) ≤ (F64.bitLen n : Int) - 53 := by omega
    have hlt : ¬ (971 : Int) < (F64.bitLen n : Int) - 53 := by omega
    have hne : ¬ ((F64.bitLen n : Int) - 53 = 971) := by omega
    have ht : ((F64.bitLen n : Int) - 53).toNat = 0 := by omega
    simp only [hz, if_true, ht, pow_zero, mul_one, Nat.div_one, Nat.mod_one, hlt, hne, false_and,
      or_self, if_false, mul_zero, show (0 : Nat) < 1 by norm_num, toRat_normal]
    have : (F64.bitLen n : Int) - 53 = 0 := by omega
    rw [this]
    simp
  · have hneg : ¬ (0 : Int) ≤ (F64.bitLen n : Int) - 53 := by omega
    have hlt : ¬ (971 : Int) < (F64.bitLen n : Int) - 53 := by omega
    have hne : ¬ ((F64.bitLen n : Int) - 53 = 971) := by omega
    simp only [hneg, if_false, Nat.div_one, Nat.mod_one, hlt, hne, false_and, or_self]
    simp only [mul_zero, Nat.lt_one_iff]
    have hz : ¬ (n * 2 ^ (-((F64.bitLen n : Int) - 53)).toNat = 0) := by positivity
    simp only [show (0:Nat) < 1 by norm_num, if_true, toRat_normal]
    congr 1
    have ht : (-((F64.bitLen n : Int) - 53)).toNat = 53 - F64.bitLen n := by omega
    rw [ht]
    have : ((F64.bitLen n : Int) - 53) = -((53 - F64.bitLen n : Nat) : Int) := by omega
    rw [this, zpow_neg, zpow_natCast]
    push_cast
    field_simp

theorem toRat_roundQ_two_pow_53 (neg : Bool) :
    F64.toRat (F64.roundQ neg (2 ^ 53) 1) = some ((if neg then -1 else 1) * ((2 ^ 53 : Nat) : ℚ)) := by
  have h : F64.roundQ neg (2 ^ 53) 1 = F64.fin neg 1 53 := by
    cases neg <;> decide
  rw [h]
  cases neg <;> norm_num [F64.toRat]

theorem toRat_roundQ_of_le (neg : Bool) (n : Nat) (h : n ≤ 2 ^ 53) :
    F64.toRat (F64.roundQ neg n 1) = some ((if neg then -1 else 1) * (n : ℚ)) := by
  rcases Nat.lt_or_ge n (2 ^ 53) with hlt | hge
  · exact toRat_roundQ_of_lt neg n hlt
  · have : n = 2 ^ 53 := le_antisymm h hge
    subst this
    exact toRat_roundQ_two_pow_53 neg

theorem abs_roundQ_exact (neg : Bool) (n : Nat) (z : Int)
    (hz : z = (if neg then -1 else 1) * (n : Int)) (hb : |z| ≤ 2 ^ 53) :
    F64.toRat (F64.roundQ neg n 1) = some (z : ℚ) := by
  have hn : n ≤ 2 ^ 53 := by
    have : |z| = (n : Int) := by
      subst hz
      cases neg <;> simp
    rw [this] at hb
    exact_mod_cast hb
  rw [toRat_roundQ_of_le neg n hn, hz]
  cases neg <;> simp

/-! ## Lemmas on `ParseFloat` -/

theorem isDigit_bounds {c : Char} (h : isDigit c = true) : 48 ≤ c.toNat ∧ c.toNat ≤ 57 := by
  simpa [isDigit] using h

theorem isDigit_ne {c d : Char} (h : isDigit c = true) (hd : isDigit d = false) : c ≠ d := by
  rintro rfl
  rw [h] at hd
  exact Bool.noConfusion hd

theorem lowerIs_digit {c : Char} (l : Char) (h : isDigit c = true) (hl : 97 ≤ l.toNat) :
    lowerIs c l = false := by
  obtain ⟨h1, h2⟩ := isDigit_bounds h
  unfold lowerIs
  generalize c.toNat = n at h1 h2
  have : n ||| 32 < 64 := by
    interval_cases n <;> decide
  simp only [beq_eq_false_iff_ne, ne_eq]
  omega

theorem decVal_foldl (s : Str) (a : Nat) :
    s.foldl (fun acc c => acc * 10 + digitVal c) a = a * 10 ^ s.length + decVal s := by
  induction s generalizing a with
  | nil => simp [decVal]
  | cons c cs ih =>
    simp only [List.foldl_cons, List.length_cons, decVal]
    rw [ih, ih (0 * 10 + digitVal c)]
    ring

theorem decVal_cons (c : Char) (cs : Str) :
    decVal (c :: cs) = digitVal c * 10 ^ cs.length + decVal cs := by
  simp only [decVal, List.foldl_cons]
  rw [decVal_foldl]
  simp [decVal]

theorem readMantissa_digits (N : Str) (hN : ∀ c ∈ N, isDigit c = true)
    (m : Nat) (sd sg : Bool) (nd : Nat) (dp : Int) (u : Bool) (hinv : nd = 0 → m = 0) :
    ∃ sg1 nd1 dp1, readMantissa false N ⟨m, sd, sg, nd, dp, u⟩ =
        (⟨m * 10 ^ N.length + decVal N, sd, sg1, nd1, dp1, u⟩, []) ∧
      (sg = true ∨ N ≠ [] → sg1 = true) := by
  induction N generalizing m sg nd dp with
  | nil => exact ⟨sg, nd, dp, by simp [readMantissa, decVal], by simp⟩
  | cons c cs ih =>
    have hc : isDigit c = true := hN c (List.mem_cons_self _ _)
    have hcs : ∀ x ∈ cs, isDigit x = true := fun x hx => hN x (List.mem_cons_of_mem _ hx)
    have h1 : c ≠ '_' := isDigit_ne hc (by decide)
    have h2 : c ≠ '.' := isDigit_ne hc (by decide)
    simp only [readMantissa, h1, h2, if_false, hc, if_true]
    by_cases hz : c = '0' ∧ nd = 0
    · simp only [hz, and_self, if_true]
      obtain ⟨sg1, nd1, dp1, e1, e2⟩ := ih hcs m true 0 (dp - 1) (fun _ => hinv hz.2)
      have hm : m = 0 := hinv hz.2
      have hd : digitVal '0' = 0 := by decide
      refine ⟨sg1, nd1, dp1, ?_, fun _ => e2 (Or.inl rfl)⟩
      rw [e1, decVal_cons, hd, hm]
      simp
    · simp only [hz, if_false, Bool.false_eq_true]
      obtain ⟨sg1, nd1, dp1, e1, e2⟩ := ih hcs (m * 10 + digitVal c) true (nd + 1) dp
        (fun h => absurd h (Nat.succ_ne_zero nd))
      refine ⟨sg1, nd1, dp1, ?_, fun _ => e2 (Or.inl rfl)⟩
      rw [e1, decVal_cons, List.length_cons]
      congr 2
      ring

theorem hasHexPrefix_digits (N : Str) (hN : ∀ c ∈ N, isDigit c = true) : hasHexPrefix N = false := by
  match N, hN with
  | [], _ => rfl
  | [_], _ => rfl
  | [_, _], _ => rfl
  | c0 :: c1 :: c2 :: cs, hN =>
    have h1 : isDigit c1 = true := hN c1 (by simp)
    simp [hasHexPrefix, lowerIs_digit 'x' h1 (by decide)]

theorem readFloatBody_digits (s : Str) (neg : Bool) (N : Str) (hne : N ≠ [])
    (hN : ∀ c ∈ N, isDigit c = true) :
    readFloatBody s neg N = some ⟨decVal N, 0, neg, false, []⟩ := by
  obtain ⟨sg1, nd1, dp1, e1, e2⟩ := readMantissa_digits N hN 0 false false 0 0 false (fun _ => rfl)
  have hsg : sg1 = true := e2 (Or.inr hne)
  subst hsg
  unfold readFloatBody
  simp only [hasHexPrefix_digits N hN, Bool.false_eq_true, if_false, e1, zero_mul, zero_add,
    Bool.not_true, readExponent, false_and, sub_self, ite_self]

theorem special_digit (c : Char) (cs : Str) (hc : isDigit c = true) : special (c :: cs) = none := by
  have h1 : c ≠ '+' := isDigit_ne hc (by decide)
  have h2 : c ≠ '-' := isDigit_ne hc (by decide)
  have h3 : c ≠ 'i' := isDigit_ne hc (by decide)
  have h4 : c ≠ 'I' := isDigit_ne hc (by decide)
  have h5 : c ≠ 'n' := isDigit_ne hc (by decide)
  have h6 : c ≠ 'N' := isDigit_ne hc (by decide)
  simp [special, h1, h2, h3, h4, h5, h6]

theorem commonPrefixLen_digit (c : Char) (cs p : Str) (hc : isDigit c = true) :
    commonPrefixLenIgnoreCase (c :: cs) ('i' :: p) = 0 := by
  have h3 : c ≠ 'i' := isDigit_ne hc (by decide)
  obtain ⟨b1, b2⟩ := isDigit_bounds hc
  have hup : ¬ ('A'.toNat ≤ c.toNat ∧ c.toNat ≤ 'Z'.toNat) := by
    have : 'A'.toNat = 65 := by decide
    omega
  simp only [commonPrefixLenIgnoreCase, hup, if_false, h3]

theorem specialInf_digit (neg : Bool) (n : Nat) (c : Char) (cs : Str) (hc : isDigit c = true) :
    specialInf neg n (c :: cs) = none := by
  have h : "infinity".toList = 'i' :: "nfinity".toList := by decide
  simp [specialInf, h, commonPrefixLen_digit c cs _ hc]

theorem floatOf_int (m : Nat) (neg : Bool) : floatOf ⟨m, 0, neg, false, []⟩ = F64.roundQ neg m 1 := by
  simp [floatOf]

theorem parseFloatPrefix_digits (N : Str) (hne : N ≠ []) (hN : ∀ c ∈ N, isDigit c = true) :
    parseFloatPrefix N = (F64.roundQ false (decVal N) 1, N.length,
      if (F64.roundQ false (decVal N) 1).isInf then some NumError.ErrRange else none) := by
  match N, hne, hN with
  | c :: cs, _, hN =>
    have hc : isDigit c = true := hN c (List.mem_cons_self _ _)
    have h1 : c ≠ '+' := isDigit_ne hc (by decide)
    have h2 : c ≠ '-' := isDigit_ne hc (by decide)
    have hb := readFloatBody_digits (c :: cs) false (c :: cs) (by simp) hN
    simp only [parseFloatPrefix, special_digit c cs hc, readFloat, h1, h2, or_self, if_false,
      decide_False, hb, floatOf_int, List.length_nil, Nat.sub_zero]

/-- `ParseFloat` of a non-empty string of decimal digits is the float nearest
to the number the digits denote. -/
theorem ParseFloat_digits (N : Str) (hne : N ≠ []) (hN : ∀ c ∈ N, isDigit c = true) :
    (ParseFloat N).1 = F64.roundQ false (decVal N) 1 := by
  simp [ParseFloat, parseFloatPrefix_digits N hne hN]

/-- `ParseFloat` of a sign followed by a non-empty string of decimal digits. -/
theorem ParseFloat_signed (sgn : Char) (N : Str) (hs : sgn = '+' ∨ sgn = '-') (hne : N ≠ [])
    (hN : ∀ c ∈ N, isDigit c = true) :
    (ParseFloat (sgn :: N)).1 = F64.roundQ (decide (sgn = '-')) (decVal N) 1 := by
  match N, hne, hN with
  | c :: cs, _, hN =>
    have hc : isDigit c = true := hN c (List.mem_cons_self _ _)
    have hb := readFloatBody_digits (sgn :: c :: cs) (decide (sgn = '-')) (c :: cs) (by simp) hN
    have hsp : special (sgn :: c :: cs) = none := by
      rcases hs with rfl | rfl
      · simp [special, specialInf_digit _ _ c cs hc]
      · simp [special, specialInf_digit _ _ c cs hc]
    have hpp : parseFloatPrefix (sgn :: c :: cs) =
        (F64.roundQ (decide (sgn = '-')) (decVal (c :: cs)) 1, (sgn :: c :: cs).length,
          if (F64.roundQ (decide (sgn = '-')) (decVal (c :: cs)) 1).isInf then
            some NumError.ErrRange else none) := by
      simp only [parseFloatPrefix, hsp, readFloat, hs, if_true, hb, floatOf_int, List.length_nil,
        Nat.sub_zero]
    simp [ParseFloat, hpp]

theorem all_isDigit {N : Str} (h : N.all isDigit = true) : ∀ c ∈ N, isDigit c = true := by
  simpa using h

theorem fieldValue_decimalInt (s : Str) (z : Int) (h : decimalInt s = some z) :
    ∃ neg N, z = (if neg then -1 else 1) * (decVal N : Int) ∧
      fieldValue Kind.int s = F64.roundQ neg (decVal N) 1 := by
  unfold decimalInt at h
  split at h
  · rename_i N
    split_ifs at h with hc
    obtain ⟨hne, hd⟩ := hc
    refine ⟨false, N, ?_, ?_⟩
    · simpa using (Option.some.inj h).symm
    · simpa [fieldValue] using ParseFloat_signed '+' N (Or.inl rfl) hne (all_isDigit hd)
  · rename_i N
    split_ifs at h with hc
    obtain ⟨hne, hd⟩ := hc
    refine ⟨true, N, ?_, ?_⟩
    · simpa using (Option.some.inj h).symm
    · simpa [fieldValue] using ParseFloat_signed '-' N (Or.inr rfl) hne (all_isDigit hd)
  · split_ifs at h with hc
    obtain ⟨hne, hd⟩ := hc
    refine ⟨false, s, ?_, ?_⟩
    · simpa using (Option.some.inj h).symm
    · simpa [fieldValue] using ParseFloat_digits s hne (all_isDigit hd)

/-! ## Lemmas on `reBytes` and on splitting -/

theorem cut_append (sep : Char) (a b : Str) (h : sep ∉ a) : cut sep (a ++ sep :: b) = some (a, b) := by
  induction a with
  | nil => simp [cut]
  | cons c cs ih =>
    have hc : c ≠ sep := fun e => h (e ▸ List.mem_cons_self _ _)
    have hcs : sep ∉ cs := fun e => h (List.mem_cons_of_mem _ e)
    simp [cut, hc, ih hcs]

theorem space_not_mem_digits (N : Str) (hN : ∀ c ∈ N, isDigit c = true) : ' ' ∉ N :=
  fun h => absurd (hN ' ' h) (by decide)

theorem matchBytesAt_digits (N post : Str) (hne : N ≠ []) (hN : ∀ c ∈ N, isDigit c = true) :
    matchBytesAt (N ++ " bytes".toList ++ post) = some (N ++ " bytes".toList) := by
  have e : " bytes".toList = ' ' :: "bytes".toList := by decide
  have h1 : (N ++ " bytes".toList ++ post).takeWhile isDigit = N := by
    rw [List.append_assoc, List.takeWhile_append_of_pos hN, e]
    simp [List.takeWhile, show isDigit ' ' = false by decide]
  have h2 : (N ++ " bytes".toList ++ post).dropWhile isDigit = " bytes".toList ++ post := by
    rw [List.append_assoc, List.dropWhile_append_of_pos hN, e]
    simp [List.dropWhile, show isDigit ' ' = false by decide]
  unfold matchBytesAt
  simp only [h1, h2]
  simp [hne]

theorem reBytesFindString_digits (N post : Str) (hne : N ≠ []) (hN : ∀ c ∈ N, isDigit c = true) :
    reBytesFindString (N ++ " bytes".toList ++ post) = N ++ " bytes".toList := by
  have hm := matchBytesAt_digits N post hne hN
  match N, hne with
  | c :: cs, _ =>
    simp only [List.cons_append] at hm ⊢
    simp only [reBytesFindString, hm]

theorem splitSpaceHead_digits (N : Str) (hN : ∀ c ∈ N, isDigit c = true) :
    splitSpaceHead (N ++ " bytes".toList) = N := by
  have e : " bytes".toList = ' ' :: "bytes".toList := by decide
  rw [e]
  simp [splitSpaceHead, cut_append ' ' N _ (space_not_mem_digits N hN)]

theorem matchBytesAt_some (s m : Str) (h : matchBytesAt s = some m) :
    ∃ ds post, ds ≠ [] ∧ (∀ c ∈ ds, isDigit c = true) ∧ s = ds ++ " bytes".toList ++ post := by
  unfold matchBytesAt at h
  simp only at h
  split_ifs at h with hc
  obtain ⟨hne, hpre⟩ := hc
  rw [List.isPrefixOf_iff_prefix] at hpre
  obtain ⟨post, hpost⟩ := hpre
  refine ⟨s.takeWhile isDigit, post, hne, fun c hc => ?_, ?_⟩
  · exact (List.mem_takeWhile_imp hc)
  · rw [List.append_assoc, hpost, List.takeWhile_append_dropWhile]

theorem reBytesFindString_nil_of_no_match (v : Str) (h : ¬ hasByteCount v) :
    reBytesFindString v = [] := by
  induction v with
  | nil => rfl
  | cons c cs ih =>
    unfold reBytesFindString
    cases hm : matchBytesAt (c :: cs) with
    | some m =>
      exfalso
      obtain ⟨ds, post, h1, h2, h3⟩ := matchBytesAt_some _ _ hm
      exact h ⟨[], ds, post, h1, h2, by simpa using h3⟩
    | none =>
      simp only
      apply ih
      rintro ⟨pre, ds, post, h1, h2, h3⟩
      exact h ⟨c :: pre, ds, post, h1, h2, by simp [h3]⟩

/-- A line `name ++ ":" ++ rest` whose `name` has no colon splits into `name`
and `rest`. -/
theorem SplitN2_at_first_colon (name rest : Str) (h : ':' ∉ name) :
    SplitN2 (name ++ ':' :: rest) = [name, rest] := by
  simp [SplitN2, cut_append ':' name rest h]

/-! ## The lines that the loops skip -/

theorem cut_eq_none_iff (sep : Char) (s : Str) : cut sep s = none ↔ sep ∉ s := by
  induction s with
  | nil => simp [cut]
  | cons c cs ih =>
    by_cases hc : c = sep
    · simp [cut, hc]
    · cases hcut : cut sep cs with
      | none =>
        have := ih.mp hcut
        simp [cut, hc, hcut, this, Ne.symm hc]
      | some ab =>
        have : ¬ sep ∉ cs := fun h => by rw [ih.mpr h] at hcut; cases hcut
        simp only [cut, hc, if_false, hcut, List.mem_cons, not_or]
        constructor
        · intro h; cases h
        · intro h; exact absurd h.2 this

theorem cut_some_fst (sep : Char) (s a b : Str) (h : cut sep s = some (a, b)) :
    a = s.takeWhile (fun c => c != sep) := by
  induction s generalizing a b with
  | nil => simp [cut] at h
  | cons c cs ih =>
    by_cases hc : c = sep
    · simp [cut, hc] at h
      simp [List.takeWhile, hc, h.1]
    · cases hcut : cut sep cs with
      | none => simp [cut, hc, hcut] at h
      | some ab =>
        obtain ⟨a1, b1⟩ := ab
        simp only [cut, hc, if_false, hcut, Option.some.injEq, Prod.mk.injEq] at h
        have h1 := ih a1 b1 hcut
        have h2 : (c != sep) = true := by simp [hc]
        rw [← h.1, h1, List.takeWhile_cons, h2]
        rfl

theorem lookupMetric_eq_none_iff (registry : List (Str × Metric)) (name : Str) :
    lookupMetric registry name = none ↔ name ∉ registry.map Prod.fst := by
  induction registry with
  | nil => exact ⟨fun _ h => (by cases h), fun _ => rfl⟩
  | cons e rest ih =>
    obtain ⟨k, m⟩ := e
    rw [List.map_cons, List.mem_cons, not_or]
    by_cases hk : k = name
    · subst hk
      simp only [lookupMetric, if_true]
      exact ⟨fun h => (by cases h), fun h => absurd trivial h.1⟩
    · simp only [lookupMetric, hk, if_false]
      exact ⟨fun h => ⟨fun e => hk e.symm, ih.mp h⟩, fun h => ih.mpr h.2⟩

/-- The loops skip exactly the lines that `keepLine` rejects. -/
theorem matchLine_eq_none_iff (registry : List (Str × Metric)) (line : Str) :
    matchLine registry line = none ↔ keepLine registry line = false := by
  unfold matchLine SplitN2 keepLine
  cases hcut : cut ':' line with
  | none =>
    have := (cut_eq_none_iff ':' line).mp hcut
    simp only [this, decide_False, Bool.false_and]
  | some ab =>
    obtain ⟨a, b⟩ := ab
    have hmem : ':' ∈ line := by
      by_contra h
      rw [(cut_eq_none_iff ':' line).mpr h] at hcut
      cases hcut
    have ha := cut_some_fst ':' line a b hcut
    simp only [hmem, decide_True, Bool.true_and, decide_eq_false_iff_not, ← ha]
    cases hl : lookupMetric registry a with
    | none =>
      have := (lookupMetric_eq_none_iff registry a).mp hl
      exact ⟨fun _ => this, fun _ => rfl⟩
    | some m =>
      have : ¬ a ∉ registry.map Prod.fst := fun h => by
        rw [(lookupMetric_eq_none_iff registry a).mpr h] at hl; cases hl
      exact ⟨fun h => (by cases h), fun h => absurd h this⟩

theorem statsLoop_filter (hostname : Str) (now : Nat → Nat) (lines : List Str)
    (pts : List (Option Point)) (k : Nat) :
    statsLoop hostname now (lines.filter (keepLine StatsMetrics)) pts k
      = statsLoop hostname now lines pts k := by
  induction lines generalizing pts k with
  | nil => rfl
  | cons line rest ih =>
    cases hk : keepLine StatsMetrics line with
    | false =>
      have := (matchLine_eq_none_iff StatsMetrics line).mpr hk
      simp [List.filter, hk, statsLoop, this, ih]
    | true =>
      simp only [List.filter, hk, statsLoop]
      cases matchLine StatsMetrics line with
      | none => exact ih pts k
      | some m => exact ih _ _

theorem memstatsLoop_filter (hostname : Str) (now : Nat → Nat) (lines : List Str)
    (pts : List (Option Point)) (fs : List Fields) (k : Nat) :
    memstatsLoop hostname now (lines.filter (keepLine MemMetrics)) pts fs k
      = memstatsLoop hostname now lines pts fs k := by
  induction lines generalizing pts fs k with
  | nil => rfl
  | cons line rest ih =>
    cases hk : keepLine MemMetrics line with
    | false =>
      have := (matchLine_eq_none_iff MemMetrics line).mpr hk
      simp [List.filter, hk, memstatsLoop, this, ih]
    | true =>
      simp only [List.filter, hk, memstatsLoop]
      cases matchLine MemMetrics line with
      | none => exact ih pts fs k
      | some m =>
        simp only
        cases NewPoint m.Name (hostTags hostname) m.Fields (now k) with
        | none => rfl
        | some pt =>
          simp only
          split_ifs
          · exact ih _ _ _
          · exact ih _ _ _

/-- Removing the lines without a colon and the lines whose text before
the first colon is not a key of the registry changes the outcome of neither
extractor, time stamps included: the clock is read once per kept line. -/
theorem extractors_ignore_dropped_lines (hostname : Str) (now : Nat → Nat) (lines : List Str) :
    statsPoints hostname now (lines.filter (keepLine StatsMetrics))
      = statsPoints hostname now lines ∧
    memstatsPoints hostname now (lines.filter (keepLine MemMetrics))
      = memstatsPoints hostname now lines := by
  constructor
  · exact statsLoop_filter hostname now lines [] 0
  · simp only [memstatsPoints, memstatsLoop_filter]

/-! ## The entries that the loops build -/

theorem lookupMetric_mem (registry : List (Str × Metric)) (name : Str) (m : Metric)
    (h : lookupMetric registry name = some m) : m ∈ registry.map Prod.snd := by
  induction registry with
  | nil => cases h
  | cons e rest ih =>
    obtain ⟨k, e1⟩ := e
    rw [List.map_cons, List.mem_cons]
    by_cases hk : k = name
    · simp only [lookupMetric, hk, if_true, Option.some.injEq] at h
      exact Or.inl h.symm
    · simp only [lookupMetric, hk, if_false] at h
      exact Or.inr (ih h)

/-- What a matched line gives: a registry entry with its one field set from
the trimmed text after the first colon. -/
theorem matchLine_some (registry : List (Str × Metric)) (line : Str) (m : Metric)
    (h : matchLine registry line = some m) :
    ∃ e ∈ registry.map Prod.snd, ∃ value : Str,
      m = { e with Fields := [(e.FieldsKey, fieldValue e.Typ (TrimSpace value))] } := by
  unfold matchLine at h
  split at h
  · rename_i name value _
    cases hl : lookupMetric registry name with
    | none => rw [hl] at h; cases h
    | some e =>
      rw [hl] at h
      simp only [Option.some.injEq] at h
      exact ⟨e, lookupMetric_mem registry name e hl, value, h.symm⟩
  · cases h

theorem registry_keys_nonempty :
    ∀ e ∈ (MemMetrics ++ StatsMetrics).map Prod.snd, e.FieldsKey ≠ [] := by decide

/-- `NewPoint` on the fields of a matched line: a Point when the value is a
number, nil when it is NaN or `±Inf`. -/
theorem NewPoint_matched (registry : List (Str × Metric))
    (hreg : ∀ e ∈ registry.map Prod.snd, e.FieldsKey ≠ []) (line : Str) (m : Metric)
    (h : matchLine registry line = some m) (tags : List (Str × Str)) (t : Nat) :
    NewPoint m.Name tags m.Fields t =
      if m.Fields.all (fun kv => kv.2.isFinite) then some ⟨m.Name, tags, m.Fields, t⟩ else none := by
  obtain ⟨e, he, value, rfl⟩ := matchLine_some registry line m h
  have hk := hreg e he
  simp only [NewPoint, List.any_cons, List.any_nil, List.all_cons, List.all_nil, Bool.or_false,
    Bool.and_true, hk, decide_False, Bool.false_eq_true, if_false]
  cases fieldValue e.Typ (TrimSpace value) <;> simp [F64.isInf, F64.isNaN, F64.isFinite]

theorem mem_registry_of_append_left (e : Metric) (h : e ∈ MemMetrics.map Prod.snd) :
    e ∈ (MemMetrics ++ StatsMetrics).map Prod.snd := by
  rw [List.map_append]; exact List.mem_append_left _ h

theorem matched_cons_none (registry : List (Str × Metric)) (line : Str) (rest : List Str)
    (h : matchLine registry line = none) : matched registry (line :: rest) = matched registry rest := by
  simp [matched, List.filterMap_cons, h]

theorem matched_cons_some (registry : List (Str × Metric)) (line : Str) (rest : List Str)
    (m : Metric) (h : matchLine registry line = some m) :
    matched registry (line :: rest) = m :: matched registry rest := by
  simp [matched, List.filterMap_cons, h]

theorem statsLoop_eq (hostname : Str) (now : Nat → Nat) (lines : List Str)
    (pts : List (Option Point)) (k : Nat) :
    statsLoop hostname now lines pts k =
      pts ++ ((matched StatsMetrics lines).enumFrom k).map
        (fun im => NewPoint im.2.Name (hostTags hostname) im.2.Fields (now im.1)) := by
  induction lines generalizing pts k with
  | nil => simp [statsLoop, matched]
  | cons line rest ih =>
    cases hm : matchLine StatsMetrics line with
    | none => simp only [statsLoop, hm, matched_cons_none _ _ _ hm, ih]
    | some m =>
      simp only [statsLoop, hm, matched_cons_some _ _ _ _ hm, ih, List.enumFrom_cons,
        List.map_cons, List.append_assoc, List.singleton_append]

/-- The entries of `statsPoints`: one per line that is not skipped, in input
order, none merged; the `i`-th is what `NewPoint` makes of the `i`-th such
line at the `i`-th reading of the clock. -/
theorem statsPoints_entries (hostname : Str) (now : Nat → Nat) (lines : List Str) :
    statsPoints hostname now lines =
      ((matched StatsMetrics lines).enumFrom 0).map
        (fun im => NewPoint im.2.Name (hostTags hostname) im.2.Fields (now im.1)) := by
  simp [statsPoints, statsLoop_eq]

theorem memstatsLoop_returns (hostname : Str) (now : Nat → Nat) (lines : List Str)
    (pts : List (Option Point)) (fs : List Fields) (k : Nat)
    (hfin : ∀ m ∈ matched MemMetrics lines, m.Fields.all (fun kv => kv.2.isFinite) = true) :
    memstatsLoop hostname now lines pts fs k = Outcome.returns
      (pts ++ (((matched MemMetrics lines).enumFrom k).filter (fun im => im.2.Name ≠ gcName)).map
          (fun im => some ⟨im.2.Name, hostTags hostname, im.2.Fields, now im.1⟩),
       fs ++ ((matched MemMetrics lines).filter (fun m => m.Name = gcName)).map (fun m => m.Fields),
       k + (matched MemMetrics lines).length) := by
  induction lines generalizing pts fs k with
  | nil => simp [memstatsLoop, matched]
  | cons line rest ih =>
    cases hm : matchLine MemMetrics line with
    | none =>
      rw [matched_cons_none _ _ _ hm] at hfin ⊢
      simp only [memstatsLoop, hm, ih pts fs k hfin]
    | some m =>
      rw [matched_cons_some _ _ _ _ hm] at hfin ⊢
      have hm_fin := hfin m (List.mem_cons_self _ _)
      have hrest : ∀ x ∈ matched MemMetrics rest, x.Fields.all (fun kv => kv.2.isFinite) = true :=
        fun x hx => hfin x (List.mem_cons_of_mem _ hx)
      have hnp := NewPoint_matched MemMetrics
        (fun e he => registry_keys_nonempty e (mem_registry_of_append_left e he)) line m hm
        (hostTags hostname) (now k)
      rw [hm_fin, if_pos rfl] at hnp
      simp only [memstatsLoop, hm, hnp]
      by_cases hg : m.Name = gcName
      · simp only [hg, if_true, ih _ _ _ hrest, List.enumFrom_cons, List.filter_cons,
          ne_eq, not_true_eq_false, decide_False, Bool.false_eq_true, if_false, decide_True,
          List.map_cons, List.append_assoc, List.singleton_append, List.length_cons]
        congr 3
        omega
      · simp only [hg, if_false, ih _ _ _ hrest, List.enumFrom_cons, List.filter_cons,
          ne_eq, not_false_eq_true, decide_True, if_true, decide_False, Bool.false_eq_true,
          List.map_cons, List.append_assoc, List.singleton_append, List.length_cons]
        congr 3
        omega

theorem memstatsLoop_panics (hostname : Str) (now : Nat → Nat) (lines : List Str)
    (pts : List (Option Point)) (fs : List Fields) (k : Nat)
    (hbad : ∃ m ∈ matched MemMetrics lines, m.Fields.all (fun kv => kv.2.isFinite) = false) :
    memstatsLoop hostname now lines pts fs k = Outcome.panics := by
  induction lines generalizing pts fs k with
  | nil => obtain ⟨m, hm, _⟩ := hbad; simp [matched] at hm
  | cons line rest ih =>
    cases hm : matchLine MemMetrics line with
    | none =>
      rw [matched_cons_none _ _ _ hm] at hbad
      simp only [memstatsLoop, hm, ih pts fs k hbad]
    | some m =>
      rw [matched_cons_some _ _ _ _ hm] at hbad
      have hnp := NewPoint_matched MemMetrics
        (fun e he => registry_keys_nonempty e (mem_registry_of_append_left e he)) line m hm
        (hostTags hostname) (now k)
      cases hf : m.Fields.all (fun kv => kv.2.isFinite) with
      | false =>
        rw [hf] at hnp
        simp only [memstatsLoop, hm, hnp, Bool.false_eq_true, if_false]
      | true =>
        rw [hf, if_pos rfl] at hnp
        have hrest : ∃ x ∈ matched MemMetrics rest,
            x.Fields.all (fun kv => kv.2.isFinite) = false := by
          obtain ⟨x, hx, hxf⟩ := hbad
          rcases List.mem_cons.mp hx with rfl | hx
          · rw [hf] at hxf; cases hxf
          · exact ⟨x, hx, hxf⟩
        simp only [memstatsLoop, hm, hnp]
        split_ifs
        · exact ih _ _ _ hrest
        · exact ih _ _ _ hrest

theorem mapSet_keys (f : Fields) (k : Str) (v : F64) (x : Str) :
    x ∈ (mapSet f k v).map Prod.fst ↔ x = k ∨ x ∈ f.map Prod.fst := by
  induction f with
  | nil => simp [mapSet]
  | cons e t ih =>
    obtain ⟨k0, v0⟩ := e
    by_cases h : k0 = k
    · subst h
      simp [mapSet]
    · simp only [mapSet, h, if_false, List.map_cons, List.mem_cons, ih]
      tauto

theorem mapSet_entries (f : Fields) (k : Str) (v : F64) (kv : Str × F64)
    (h : kv ∈ mapSet f k v) : kv = (k, v) ∨ kv ∈ f := by
  induction f with
  | nil => simpa [mapSet] using h
  | cons e t ih =>
    obtain ⟨k0, v0⟩ := e
    by_cases hk : k0 = k
    · simp only [mapSet, hk, if_true, List.mem_cons] at h
      rcases h with h | h
      · exact Or.inl h
      · exact Or.inr (List.mem_cons_of_mem _ h)
    · simp only [mapSet, hk, if_false, List.mem_cons] at h
      rcases h with h | h
      · exact Or.inr (h ▸ List.mem_cons_self _ _)
      · rcases ih h with h1 | h1
        · exact Or.inl h1
        · exact Or.inr (List.mem_cons_of_mem _ h1)

theorem assignAll_keys (vv g : Fields) (x : Str) :
    x ∈ (vv.foldl (fun g kv => mapSet g kv.1 kv.2) g).map Prod.fst ↔
      x ∈ vv.map Prod.fst ∨ x ∈ g.map Prod.fst := by
  induction vv generalizing g with
  | nil => simp
  | cons e t ih =>
    simp only [List.foldl_cons, ih, mapSet_keys, List.map_cons, List.mem_cons]
    tauto

theorem assignAll_entries (vv g : Fields) (kv : Str × F64)
    (h : kv ∈ vv.foldl (fun g kv => mapSet g kv.1 kv.2) g) : kv ∈ vv ∨ kv ∈ g := by
  induction vv generalizing g with
  | nil => exact Or.inr h
  | cons e t ih =>
    simp only [List.foldl_cons] at h
    rcases ih _ h with h1 | h1
    · exact Or.inl (List.mem_cons_of_mem _ h1)
    · rcases mapSet_entries _ _ _ _ h1 with h2 | h2
      · exact Or.inl (h2 ▸ List.mem_cons_self _ _)
      · exact Or.inr h2

theorem mergeInto_keys (fs : List Fields) (g : Fields) (x : Str) :
    x ∈ (fs.foldl (fun f vv => vv.foldl (fun g kv => mapSet g kv.1 kv.2) f) g).map Prod.fst ↔
      (∃ vv ∈ fs, x ∈ vv.map Prod.fst) ∨ x ∈ g.map Prod.fst := by
  induction fs generalizing g with
  | nil => simp
  | cons vv t ih =>
    simp only [List.foldl_cons, ih, assignAll_keys, List.mem_cons, exists_eq_or_imp]
    constructor
    · rintro (h | h | h)
      · exact Or.inl (Or.inr h)
      · exact Or.inl (Or.inl h)
      · exact Or.inr h
    · rintro ((h | h) | h)
      · exact Or.inr (Or.inl h)
      · exact Or.inl h
      · exact Or.inr (Or.inr h)

theorem mergeInto_entries (fs : List Fields) (g : Fields) (kv : Str × F64)
    (h : kv ∈ fs.foldl (fun f vv => vv.foldl (fun g kv => mapSet g kv.1 kv.2) f) g) :
    (∃ vv ∈ fs, kv ∈ vv) ∨ kv ∈ g := by
  induction fs generalizing g with
  | nil => exact Or.inr h
  | cons vv t ih =>
    simp only [List.foldl_cons] at h
    rcases ih _ h with ⟨w, hw, hkv⟩ | h1
    · exact Or.inl ⟨w, List.mem_cons_of_mem _ hw, hkv⟩
    · rcases assignAll_entries _ _ _ h1 with h2 | h2
      · exact Or.inl ⟨vv, List.mem_cons_self _ _, h2⟩
      · exact Or.inr h2

/-- The keys of the merged map are the keys of the collected maps. -/
theorem mergeFields_keys (fs : List Fields) (x : Str) :
    x ∈ (mergeFields fs).map Prod.fst ↔ ∃ vv ∈ fs, x ∈ vv.map Prod.fst := by
  unfold mergeFields
  rw [mergeInto_keys]
  constructor
  · rintro (h | h)
    · exact h
    · cases h
  · exact Or.inl

/-- Every entry of the merged map is an entry of a collected map. -/
theorem mergeFields_entries (fs : List Fields) (kv : Str × F64) (h : kv ∈ mergeFields fs) :
    ∃ vv ∈ fs, kv ∈ vv := by
  rcases mergeInto_entries fs [] kv h with h1 | h1
  · exact h1
  · cases h1

/-- A matched line has exactly one field, under a `FieldsKey` of the
registry. -/
theorem matched_fields (registry : List (Str × Metric)) (lines : List Str) (m : Metric)
    (h : m ∈ matched registry lines) :
    ∃ v : F64, m.Fields = [(m.FieldsKey, v)] ∧ m.FieldsKey ∈ (registry.map Prod.snd).map
      (fun e => e.FieldsKey) := by
  obtain ⟨line, _, hl⟩ := List.mem_filterMap.mp h
  obtain ⟨e, he, value, rfl⟩ := matchLine_some registry line m hl
  exact ⟨_, rfl, List.mem_map.mpr ⟨e, he, rfl⟩⟩

/-- `memstatsPoints` when every value of a matched line is a number: it
returns one Point per matched line of a metric other than
`go_gc_duration_seconds`, in input order, and then the entry built for
`go_gc_duration_seconds` from the merged fields of the other matched lines. -/
theorem memstatsPoints_returns (hostname : Str) (now : Nat → Nat) (lines : List Str)
    (hfin : ∀ m ∈ matched MemMetrics lines, m.Fields.all (fun kv => kv.2.isFinite) = true) :
    memstatsPoints hostname now lines = Outcome.returns
      ((((matched MemMetrics lines).enumFrom 0).filter (fun im => im.2.Name ≠ gcName)).map
          (fun im => some ⟨im.2.Name, hostTags hostname, im.2.Fields, now im.1⟩) ++
        [NewPoint gcName (hostTags hostname)
          (mergeFields (((matched MemMetrics lines).filter (fun m => m.Name = gcName)).map
            (fun m => m.Fields)))
          (now (matched MemMetrics lines).length)]) := by
  simp only [memstatsPoints, memstatsLoop_returns hostname now lines [] [] 0 hfin,
    List.nil_append, Nat.zero_add]

/-- `memstatsPoints` panics exactly when the value of some matched line is
NaN or `±Inf`. -/
theorem memstatsPoints_panics_iff (hostname : Str) (now : Nat → Nat) (lines : List Str) :
    memstatsPoints hostname now lines = Outcome.panics ↔
      ∃ m ∈ matched MemMetrics lines, m.Fields.all (fun kv => kv.2.isFinite) = false := by
  constructor
  · intro h
    by_contra hc
    have hfin : ∀ m ∈ matched MemMetrics lines,
        m.Fields.all (fun kv => kv.2.isFinite) = true := by
      intro m hm
      by_contra hf
      exact hc ⟨m, hm, by simpa using hf⟩
    rw [memstatsPoints_returns hostname now lines hfin] at h
    cases h
  · intro h
    simp only [memstatsPoints, memstatsLoop_panics hostname now lines [] [] 0 h]

/-- The grouped GC entry when every matched value is a number and some line
names a GC field: `NewPoint` accepts the merged fields, and their keys are
the sub-field keys of the GC lines that are present. -/
theorem gc_entry_of_gc_lines (hostname : Str) (lines : List Str) (t : Nat)
    (hfin : ∀ m ∈ matched MemMetrics lines, m.Fields.all (fun kv => kv.2.isFinite) = true)
    (hgc : ∃ m ∈ matched MemMetrics lines, m.Name = gcName) :
    ∃ f : Fields,
      NewPoint gcName (hostTags hostname)
        (mergeFields (((matched MemMetrics lines).filter (fun m => m.Name = gcName)).map
          (fun m => m.Fields))) t = some ⟨gcName, hostTags hostname, f, t⟩ ∧
      ∀ key : Str, key ∈ f.map Prod.fst ↔
        ∃ m ∈ matched MemMetrics lines, m.Name = gcName ∧ m.FieldsKey = key := by
  have hkeys : ∀ key : Str,
      key ∈ (mergeFields (((matched MemMetrics lines).filter (fun m => m.Name = gcName)).map
          (fun m => m.Fields))).map Prod.fst ↔
        ∃ m ∈ matched MemMetrics lines, m.Name = gcName ∧ m.FieldsKey = key := by
    intro key
    rw [mergeFields_keys]
    constructor
    · rintro ⟨vv, hvv, hk⟩
      obtain ⟨m, hm, rfl⟩ := List.mem_map.mp hvv
      obtain ⟨hm1, hm2⟩ := List.mem_filter.mp hm
      obtain ⟨v, hv, _⟩ := matched_fields MemMetrics lines m hm1
      rw [hv] at hk
      refine ⟨m, hm1, by simpa using hm2, ?_⟩
      have hk2 : key = m.FieldsKey := by simpa using hk
      exact hk2.symm
    · rintro ⟨m, hm1, hm2, rfl⟩
      obtain ⟨v, hv, _⟩ := matched_fields MemMetrics lines m hm1
      refine ⟨m.Fields, List.mem_map.mpr ⟨m, List.mem_filter.mpr ⟨hm1, by simpa using hm2⟩, rfl⟩, ?_⟩
      rw [hv]
      simp
  refine ⟨_, ?_, hkeys⟩
  generalize hF : mergeFields (((matched MemMetrics lines).filter (fun m => m.Name = gcName)).map
      (fun m => m.Fields)) = F at hkeys
  have hne : F ≠ [] := by
    obtain ⟨m, hm1, hm2⟩ := hgc
    have := (hkeys m.FieldsKey).mpr ⟨m, hm1, hm2, rfl⟩
    intro e
    rw [e] at this
    cases this
  have hent : ∀ kv ∈ F, ∃ m ∈ matched MemMetrics lines, kv ∈ m.Fields := by
    intro kv hkv
    rw [← hF] at hkv
    obtain ⟨vv, hvv, hk⟩ := mergeFields_entries _ kv hkv
    obtain ⟨m, hm, rfl⟩ := List.mem_map.mp hvv
    exact ⟨m, (List.mem_filter.mp hm).1, hk⟩
  have h1 : F.any (fun kv => kv.2.isInf || kv.2.isNaN) = false := by
    rw [List.any_eq_false]
    intro kv hkv
    obtain ⟨m, hm, hk⟩ := hent kv hkv
    have := List.all_eq_true.mp (hfin m hm) kv hk
    revert this
    cases kv.2 <;> simp [F64.isFinite, F64.isInf, F64.isNaN]
  have h2 : F.any (fun kv => decide (kv.1 = [])) = false := by
    rw [List.any_eq_false]
    intro kv hkv
    obtain ⟨m, hm, hk⟩ := hent kv hkv
    obtain ⟨v, hv, hreg⟩ := matched_fields MemMetrics lines m hm
    rw [hv] at hk
    have hk1 : kv.1 = m.FieldsKey := by
      have := List.mem_singleton.mp hk
      rw [this]
    obtain ⟨e, he, hek⟩ := List.mem_map.mp hreg
    have := registry_keys_nonempty e (mem_registry_of_append_left e he)
    simp only [decide_eq_true_eq, hk1, ← hek]
    exact this
  simp only [NewPoint, hne, if_false, h1, h2, Bool.false_eq_true]

/-! ## Rejected text -/

/-- A text that `ParseFloat` rejects as malformed gives the value `0`. -/
theorem ParseFloat_ErrSyntax_zero (v : Str) (h : (ParseFloat v).2 = some NumError.ErrSyntax) :
    (ParseFloat v).1 = F64.zero := by
  unfold ParseFloat at h ⊢
  rcases hp : parseFloatPrefix v with ⟨f, n, err⟩
  rw [hp] at h
  simp only at h ⊢
  split_ifs at h ⊢ with hc
  · rfl
  · simp only at h
    subst h
    unfold parseFloatPrefix at hp
    split at hp
    · cases hp
    · split at hp
      · simp only [Prod.mk.injEq] at hp
        exact hp.1.symm
      · simp only [Prod.mk.injEq] at hp
        split_ifs at hp <;> simp at hp

/-- The value that `SetFields` stores for a text that the parser of the
kind rejects as malformed: `0` for an integer count, a byte size and a
duration; for a timestamp the seconds of `time.Time{}.UnixNano()`, which
is the `int64` that `-62135596800 · 10^9` wraps to. -/
theorem fieldValue_of_rejected (v : Str) :
    ((ParseFloat v).2 = some NumError.ErrSyntax → fieldValue Kind.int v = F64.zero) ∧
    ((ParseFloat (splitSpaceHead (reBytesFindString v))).2 = some NumError.ErrSyntax →
      fieldValue Kind.bytes v = F64.zero) ∧
    (ParseDuration v = none → fieldValue Kind.duration v = F64.zero) ∧
    (timeParse v = none → fieldValue Kind.time v = F64.fin true 7125456208654599 (-20)) := by
  refine ⟨fun h => ParseFloat_ErrSyntax_zero v h, fun h => ParseFloat_ErrSyntax_zero _ h, ?_, ?_⟩
  · intro h
    simp only [fieldValue, h, Option.getD_none]
    decide
  · intro h
    simp only [fieldValue, h, Option.getD_none]
    decide

/-! ## The rounds of the loop -/

/-- `execGops` never returns an error: where the command fails it has
already ended the process in `log.Fatal`. -/
theorem execGops_returns_no_error (w : World) (k : Nat) (subcmd : Str) (lines : List Str)
    (cause : Str) : execGops w k subcmd ≠ GopsCall.returns lines (some cause) := by
  unfold execGops
  cases h : (w.gops k subcmd).err with
  | none => simp [h]
  | some e => simp [h]

/-- A failed invocation of `gops memstats` ends the run in `log.Fatal`,
whatever the liveness check would say: the check is not made. -/
theorem cycle_of_failed_memstats (cfg : Config) (w : World) (k : Nat) (bp : List (Option Point))
    (cause : Str) (h : (w.gops k "memstats".toList).err = some cause) :
    cycle cfg w k bp =
      ([Event.sleep, Event.gops "memstats".toList cfg.proc], Step.done (Ending.fatal cause)) := by
  simp only [cycle, execGops, h]

/-- A failed invocation of `gops stats` ends the run in `log.Fatal`,
whatever the liveness check would say. -/
theorem cycle_of_failed_stats (cfg : Config) (w : World) (k : Nat) (bp : List (Option Point))
    (cause : Str) (hm : (w.gops k "memstats".toList).err = none)
    (h : (w.gops k "stats".toList).err = some cause) :
    cycle cfg w k bp =
      ([Event.sleep, Event.gops "memstats".toList cfg.proc, Event.gops "stats".toList cfg.proc],
        Step.done (Ending.fatal cause)) := by
  simp only [cycle, execGops, hm, h]

/-- A round in which both invocations succeed and `memstatsPoints` returns
writes the batch with the points of the round added to those it held, and
keeps them all for the next round. -/
theorem cycle_of_success (cfg : Config) (w : World) (k : Nat) (bp mp : List (Option Point))
    (hm : (w.gops k "memstats".toList).err = none) (hs : (w.gops k "stats".toList).err = none)
    (hp : memstatsPoints w.hostname (w.nowMem k) (splitLines (w.gops k "memstats".toList).output)
      = Outcome.returns mp) :
    cycle cfg w k bp =
      ([Event.sleep, Event.gops "memstats".toList cfg.proc, Event.gops "stats".toList cfg.proc,
        Event.write (bp ++ (mp ++ statsPoints w.hostname (w.nowStats k)
          (splitLines (w.gops k "stats".toList).output)))],
       Step.next (bp ++ (mp ++ statsPoints w.hostname (w.nowStats k)
          (splitLines (w.gops k "stats".toList).output)))) := by
  simp only [cycle, execGops, hm, hs, assembleAndWrite, hp, List.cons_append, List.nil_append]

/-! ## The shape of the result of `memstatsPoints` -/

theorem filter_enumFrom_length {α : Type} (p : α → Bool) (l : List α) (k : Nat) :
    ((l.enumFrom k).filter (fun im => p im.2)).length = (l.filter p).length := by
  induction l generalizing k with
  | nil => rfl
  | cons a t ih =>
    simp only [List.enumFrom_cons, List.filter_cons]
    cases p a <;> simp [ih]

/-- The shape of the result of `memstatsPoints` when every value of a
matched line is a number: as many entries as there are matched lines of
other metrics, then one last entry, built for `go_gc_duration_seconds` from
the merged fields of the matched GC lines, which is the empty map when
there is no such line. -/
theorem memstatsPoints_length_and_last (hostname : Str) (now : Nat → Nat) (lines : List Str)
    (hfin : ∀ m ∈ matched MemMetrics lines, m.Fields.all (fun kv => kv.2.isFinite) = true) :
    ∃ pts : List (Option Point),
      memstatsPoints hostname now lines = Outcome.returns
        (pts ++ [NewPoint gcName (hostTags hostname)
          (mergeFields (((matched MemMetrics lines).filter (fun m => m.Name = gcName)).map
            (fun m => m.Fields)))
          (now (matched MemMetrics lines).length)]) ∧
      pts.length = ((matched MemMetrics lines).filter (fun m => m.Name ≠ gcName)).length ∧
      ((∀ m ∈ matched MemMetrics lines, m.Name ≠ gcName) →
        mergeFields (((matched MemMetrics lines).filter (fun m => m.Name = gcName)).map
          (fun m => m.Fields)) = []) := by
  refine ⟨_, memstatsPoints_returns hostname now lines hfin, ?_, ?_⟩
  · rw [List.length_map]
    exact filter_enumFrom_length (fun m : Metric => decide (m.Name ≠ gcName)) _ 0
  · intro h
    have : (matched MemMetrics lines).filter (fun m => m.Name = gcName) = [] := by
      rw [List.filter_eq_nil_iff]
      intro m hm
      simpa using h m hm
    rw [this]
    rfl

/-! ## The leftmost match of `reBytes` -/

theorem not_isDigit_of_mem_bytes : ∀ c ∈ " bytes".toList, isDigit c = false := by decide

/-- No match of `[0-9]+ bytes` begins at the start of a non-empty text `pre`
that does not end in a digit and is followed by digits, unless `pre` with
those digits has a byte count of its own. -/
theorem matchBytesAt_none_before (pre N rest : Str) (hpre : pre ≠ []) (hne : N ≠ [])
    (hN : ∀ c ∈ N, isDigit c = true)
    (hlast : ∀ c, pre.getLast? = some c → isDigit c = false)
    (hno : ¬ hasByteCount (pre ++ N)) :
    matchBytesAt (pre ++ N ++ rest) = none := by
  -- split `pre` into its leading digits and what follows them
  have hsplit : pre.takeWhile isDigit ++ pre.dropWhile isDigit = pre :=
    List.takeWhile_append_dropWhile isDigit pre
  have hd1 : ∀ c ∈ pre.takeWhile isDigit, isDigit c = true := fun c hc => List.mem_takeWhile_imp hc
  have hr1 : pre.dropWhile isDigit ≠ [] := by
    intro h
    have hall : ∀ x ∈ pre, isDigit x = true := List.dropWhile_eq_nil_iff.mp h
    obtain ⟨ys, a, hya⟩ : ∃ ys a, pre = ys ++ [a] := by
      rcases List.eq_nil_or_concat pre with h0 | ⟨ys, a, h1⟩
      · exact absurd h0 hpre
      · exact ⟨ys, a, by simpa using h1⟩
    have hl : pre.getLast? = some a := by rw [hya]; simp
    have h1 := hlast a hl
    have h2 := hall a (by rw [hya]; simp)
    rw [h1] at h2
    cases h2
  obtain ⟨x, r, hxr⟩ : ∃ x r, pre.dropWhile isDigit = x :: r := by
    cases h : pre.dropWhile isDigit with
    | nil => exact absurd h hr1
    | cons x r => exact ⟨x, r, rfl⟩
  have hx : isDigit x = false := by
    have := List.head_dropWhile_not isDigit pre hr1
    simp only [hxr, List.head_cons] at this
    exact this
  have hs : pre ++ N ++ rest = pre.takeWhile isDigit ++ (x :: (r ++ N ++ rest)) := by
    conv_lhs => rw [← hsplit, hxr]
    simp
  have ht : (pre ++ N ++ rest).takeWhile isDigit = pre.takeWhile isDigit := by
    rw [hs, List.takeWhile_append_of_pos hd1]
    simp [List.takeWhile, hx]
  have hdr : (pre ++ N ++ rest).dropWhile isDigit = x :: (r ++ N ++ rest) := by
    rw [hs, List.dropWhile_append_of_pos hd1]
    simp [List.dropWhile, hx]
  unfold matchBytesAt
  simp only [ht, hdr]
  rw [if_neg]
  rintro ⟨hds, hp⟩
  rw [List.isPrefixOf_iff_prefix] at hp
  have hp2 : (x :: r) <+: x :: (r ++ N ++ rest) := ⟨N ++ rest, by simp⟩
  rcases List.prefix_or_prefix_of_prefix hp hp2 with hA | hB
  · -- `" bytes"` lies within `pre`
    obtain ⟨t, ht1⟩ := hA
    apply hno
    refine ⟨[], pre.takeWhile isDigit, t ++ N, hds, hd1, ?_⟩
    conv_lhs => rw [← hsplit, hxr, ← ht1]
    simp
  · -- `" bytes"` reaches into `N`
    obtain ⟨t, ht1⟩ := hB
    obtain ⟨post, hpost⟩ := hp
    cases t with
    | nil =>
      apply hno
      refine ⟨[], pre.takeWhile isDigit, N, hds, hd1, ?_⟩
      conv_lhs => rw [← hsplit, hxr]
      rw [List.append_nil] at ht1
      rw [ht1]
      simp
    | cons t0 t1 =>
      match N, hne, hN with
      | n0 :: N1, _, hN =>
        have h1 : (x :: r) ++ (t0 :: t1 ++ post) = (x :: r) ++ (n0 :: N1 ++ rest) := by
          rw [← List.append_assoc, ht1, hpost]
          simp
        have h2 := List.append_cancel_left h1
        have h3 : t0 = n0 := by
          simp only [List.cons_append, List.cons.injEq] at h2
          exact h2.1
        have h4 : isDigit t0 = false :=
          not_isDigit_of_mem_bytes t0 (by rw [← ht1]; simp)
        have h5 : isDigit n0 = true := hN n0 (List.mem_cons_self _ _)
        rw [h3, h5] at h4
        cases h4

/-- The leftmost match of `[0-9]+ bytes` in `pre ++ N ++ " bytes" ++ suf` is
`N ++ " bytes"`, when `pre` does not end in a digit and `pre ++ N` has no
byte count. -/
theorem reBytesFindString_leftmost (pre N suf : Str) (hne : N ≠ [])
    (hN : ∀ c ∈ N, isDigit c = true)
    (hlast : ∀ c, pre.getLast? = some c → isDigit c = false)
    (hno : ¬ hasByteCount (pre ++ N)) :
    reBytesFindString (pre ++ N ++ " bytes".toList ++ suf) = N ++ " bytes".toList := by
  induction pre with
  | nil => simpa using reBytesFindString_digits N suf hne hN
  | cons c cs ih =>
    have hm := matchBytesAt_none_before (c :: cs) N (" bytes".toList ++ suf) (by simp) hne hN
      hlast hno
    have e : c :: cs ++ N ++ " bytes".toList ++ suf = c :: (cs ++ N ++ (" bytes".toList ++ suf)) := by
      simp
    have e2 : c :: cs ++ N ++ (" bytes".toList ++ suf) = c :: (cs ++ N ++ (" bytes".toList ++ suf)) := by
      simp
    rw [e2] at hm
    rw [e]
    simp only [reBytesFindString, hm]
    have e3 : cs ++ N ++ (" bytes".toList ++ suf) = cs ++ N ++ " bytes".toList ++ suf := by simp
    rw [e3]
    apply ih
    · intro a ha
      apply hlast a
      cases cs with
      | nil => simp at ha
      | cons b bs => simpa using ha
    · rintro ⟨p, ds, post, h1, h2, h3⟩
      exact hno ⟨c :: p, ds, post, h1, h2, by simp [h3]⟩

theorem matchBytesAt_ne_nil (s m : Str) (h : matchBytesAt s = some m) : m ≠ [] := by
  unfold matchBytesAt at h
  simp only at h
  split_ifs at h with hc
  simp only [Option.some.injEq] at h
  rw [← h]
  simp

/-- A text with a byte count has a match of `[0-9]+ bytes`. -/
theorem reBytesFindString_ne_nil_of_match (v : Str) (h : hasByteCount v) :
    reBytesFindString v ≠ [] := by
  obtain ⟨pre, ds, post, h1, h2, h3⟩ := h
  subst h3
  induction pre with
  | nil =>
    rw [List.nil_append, reBytesFindString_digits ds post h1 h2]
    simp
  | cons c cs ih =>
    simp only [List.cons_append, reBytesFindString]
    cases hm : matchBytesAt (c :: (cs ++ ds ++ " bytes".toList ++ post)) with
    | some m =>
      have := matchBytesAt_ne_nil _ m (by simpa using hm)
      simpa [hm] using this
    | none =>
      simp only [List.append_assoc] at hm ih ⊢
      simpa [hm] using ih

theorem no_byte_count_before_unit :
    ¬ hasByteCount ("1.23MB (".toList ++ "1289712".toList) ∧
    ¬ hasByteCount ("8.00PB (".toList ++ "9007199254740993".toList) :=
  ⟨fun h => reBytesFindString_ne_nil_of_match _ h (by decide),
   fun h => reBytesFindString_ne_nil_of_match _ h (by decide)⟩

theorem last_is_paren (pre : Str) (c : Char) (h : (pre ++ ['(']).getLast? = some c) :
    isDigit c = false := by
  simp at h
  rw [← h]
  decide

/-! ## The claims -/

/-- C1, the failing input: the one line `num-gc: NaN` names the grouped-GC
field `num-gc`; its value parses to NaN, `NewPoint` refuses it and returns a
nil Point, and `memstatsPoints` panics on `pt.Name()` instead of returning
the merged `go_gc_duration_seconds` Point. -/
theorem C1_gc_line_with_NaN_panics (hostname : Str) (now : Nat → Nat) :
    matchLine MemMetrics "num-gc: NaN".toList
      = some ⟨Kind.int, "count".toList, gcName, [("count".toList, F64.nan)]⟩ ∧
    NewPoint gcName (hostTags hostname) [("count".toList, F64.nan)] (now 0) = none ∧
    memstatsPoints hostname now ["num-gc: NaN".toList] = Outcome.panics :=
  ⟨by decide, rfl, rfl⟩

/-- C2 (as amended): `memstatsPoints` applied to the lines of the raw heap
text `"alloc: 1024 bytes\nsys: 2048 bytes\n"` (split on newline) yields
three entries: `go_memstats_alloc_bytes` with the single field
`gauge = 1024.0`, `go_memstats_sys_bytes` with the single field
`gauge = 2048.0`, each tagged with the host name, and last the entry built
for `go_gc_duration_seconds` from the empty field map. -/
theorem C2_heap_text_end_to_end (hostname : Str) (now : Nat → Nat) :
    splitLines "alloc: 1024 bytes\nsys: 2048 bytes\n".toList
      = ["alloc: 1024 bytes".toList, "sys: 2048 bytes".toList, []] ∧
    memstatsPoints hostname now (splitLines "alloc: 1024 bytes\nsys: 2048 bytes\n".toList)
      = Outcome.returns
          [some ⟨"go_memstats_alloc_bytes".toList, [("host".toList, hostname)],
              [("gauge".toList, F64.ofNat 1024)], now 0⟩,
           some ⟨"go_memstats_sys_bytes".toList, [("host".toList, hostname)],
              [("gauge".toList, F64.ofNat 2048)], now 1⟩,
           NewPoint gcName (hostTags hostname) [] (now 2)] ∧
    F64.toRat (F64.ofNat 1024) = some 1024 ∧ F64.toRat (F64.ofNat 2048) = some 2048 := by
  have h1 : F64.ofNat 1024 = F64.fin false 1 10 := by decide
  have h2 : F64.ofNat 2048 = F64.fin false 1 11 := by decide
  refine ⟨by decide, ?_, ?_, ?_⟩
  · rw [h1, h2]; rfl
  · rw [h1]; norm_num [F64.toRat]
  · rw [h2]; norm_num [F64.toRat]

/-- C2, counterexample: for the host name `h` and the clock readings
`0, 1, 2, …` the result for the raw heap text
`"alloc: 1024 bytes\nsys: 2048 bytes\n"` is not a list of two Points: it has
a third entry. -/
theorem C2_heap_text_has_third_entry :
    ¬ ∃ p q : Point,
      memstatsPoints "h".toList (fun k => k)
        (splitLines "alloc: 1024 bytes\nsys: 2048 bytes\n".toList)
        = Outcome.returns [some p, some q] := by
  rintro ⟨p, q, h⟩
  have e : memstatsPoints "h".toList (fun k => k)
      (splitLines "alloc: 1024 bytes\nsys: 2048 bytes\n".toList)
      = Outcome.returns
          [some ⟨"go_memstats_alloc_bytes".toList, [("host".toList, "h".toList)],
              [("gauge".toList, F64.fin false 1 10)], 0⟩,
           some ⟨"go_memstats_sys_bytes".toList, [("host".toList, "h".toList)],
              [("gauge".toList, F64.fin false 1 11)], 1⟩,
           none] := by rfl
  rw [e] at h
  have hl := congrArg (fun o => match o with
    | Outcome.returns l => l.length
    | Outcome.panics => 0) h
  simp at hl

/-- C3, the failing input: for the one line `goroutines: NaN`, whose text
before the colon is a key of `StatsMetrics`, `statsPoints` returns one entry
that is not a Point but nil: the value parses to NaN and `NewPoint` refuses
it. -/
theorem C3_stats_line_with_NaN_gives_nil (hostname : Str) (now : Nat → Nat) :
    matchLine StatsMetrics "goroutines: NaN".toList
      = some ⟨Kind.int, "gauge".toList, "go_goroutines".toList, [("gauge".toList, F64.nan)]⟩ ∧
    statsPoints hostname now ["goroutines: NaN".toList] = [none] :=
  ⟨by decide, rfl⟩

/-- C4, the failing input: on the one line `lookups: +Inf`, which the filter
keeps, `memstatsPoints` does not return: it panics on the nil Point of the
refused value. -/
theorem C4_memstats_panics_on_Inf (hostname : Str) (now : Nat → Nat) :
    keepLine MemMetrics "lookups: +Inf".toList = true ∧
    fieldValue Kind.int "+Inf".toList = F64.inf false ∧
    memstatsPoints hostname now ["lookups: +Inf".toList] = Outcome.panics :=
  ⟨by decide, by decide, rfl⟩

/-- C5, the failing input: the lines `alloc: 1024 bytes` and
`heap-objects: nan` are two matched non-GC lines, but `memstatsPoints`
returns no Point for either: it panics at the second. -/
theorem C5_non_gc_lines_with_NaN_panic (hostname : Str) (now : Nat → Nat) :
    (matched MemMetrics ["alloc: 1024 bytes".toList, "heap-objects: nan".toList]).map
        (fun m => (m.Name, m.Fields))
      = [("go_memstats_alloc_bytes".toList, [("gauge".toList, F64.ofNat 1024)]),
         ("go_memstats_objects".toList, [("gauge".toList, F64.nan)])] ∧
    memstatsPoints hostname now ["alloc: 1024 bytes".toList, "heap-objects: nan".toList]
      = Outcome.panics :=
  ⟨by decide, rfl⟩

/-- C6: for every line `name ++ ":" ++ rest` where `name` contains no colon
and is a key of the registry, the extractor looks up `name` and sets the
fields from the whitespace-trimmed whole of `rest`, whatever colons `rest`
contains; the line `last-gc: 2023-01-02 03:04:05.5 +0000 UTC` is matched as
field `last-gc` with the raw value `2023-01-02 03:04:05.5 +0000 UTC` and
gives a `go_memstats_last_gc_time_seconds` Point. -/
theorem C6_line_split_at_first_colon (registry : List (Str × Metric)) (name rest : Str)
    (m : Metric) (hname : ':' ∉ name) (hreg : lookupMetric registry name = some m) :
    matchLine registry (name ++ ':' :: rest) = some (m.SetFields (TrimSpace rest)) ∧
    lookupMetric MemMetrics "last-gc".toList
      = some ⟨Kind.time, "gauge".toList, "go_memstats_last_gc_time_seconds".toList, []⟩ ∧
    TrimSpace " 2023-01-02 03:04:05.5 +0000 UTC".toList
      = "2023-01-02 03:04:05.5 +0000 UTC".toList ∧
    (∀ (hostname : Str) (now : Nat → Nat),
      memstatsPoints hostname now ["last-gc: 2023-01-02 03:04:05.5 +0000 UTC".toList]
        = Outcome.returns
            [some ⟨"go_memstats_last_gc_time_seconds".toList, [("host".toList, hostname)],
                [("gauge".toList, F64.fin false 3345257291 (-1))], now 0⟩,
             NewPoint gcName (hostTags hostname) [] (now 1)]) := by
  refine ⟨?_, by decide, by decide, fun _ _ => rfl⟩
  simp only [matchLine, SplitN2_at_first_colon name rest hname, hreg]

/-- C6, witness: the registry `MemMetrics` and the line
`last-gc: 2023-01-02 03:04:05.5 +0000 UTC`, whose value has two colons. -/
theorem C6_line_split_at_first_colon_witness :
    ':' ∉ "last-gc".toList ∧
    lookupMetric MemMetrics "last-gc".toList
      = some ⟨Kind.time, "gauge".toList, "go_memstats_last_gc_time_seconds".toList, []⟩ ∧
    matchLine MemMetrics ("last-gc".toList ++ ':' :: " 2023-01-02 03:04:05.5 +0000 UTC".toList)
      = some (Metric.SetFields
          ⟨Kind.time, "gauge".toList, "go_memstats_last_gc_time_seconds".toList, []⟩
          (TrimSpace " 2023-01-02 03:04:05.5 +0000 UTC".toList)) :=
  ⟨by decide, by decide,
   (C6_line_split_at_first_colon MemMetrics "last-gc".toList
      " 2023-01-02 03:04:05.5 +0000 UTC".toList
      ⟨Kind.time, "gauge".toList, "go_memstats_last_gc_time_seconds".toList, []⟩
      (by decide) (by decide)).1⟩

/-- C7 (as amended): for every non-empty string `N` of decimal digits that
denotes a number of at most `2^53`, `SetFields` on a byteSize spec with the
raw value `N ++ " bytes"` stores under `FieldsKey` exactly the number `N`;
and for every raw value without a part of the shape digits-then-`" bytes"`
it stores the value `0`.  (`SetFields` has no error result.) -/
theorem C7_byteSize_exact_up_to_2_pow_53 (m : Metric) (hm : m.Typ = Kind.bytes) :
    (∀ N : Str, N ≠ [] → (∀ c ∈ N, isDigit c = true) → decVal N ≤ 2 ^ 53 →
      ∃ v : F64, (m.SetFields (N ++ " bytes".toList)).Fields = [(m.FieldsKey, v)] ∧
        F64.toRat v = some (decVal N : ℚ)) ∧
    (∀ v : Str, ¬ hasByteCount v → (m.SetFields v).Fields = [(m.FieldsKey, F64.zero)]) := by
  constructor
  · intro N hne hN hb
    refine ⟨F64.roundQ false (decVal N) 1, ?_, ?_⟩
    · have h := reBytesFindString_digits N [] hne hN
      rw [List.append_nil] at h
      simp only [Metric.SetFields, hm, fieldValue, h, splitSpaceHead_digits N hN,
        ParseFloat_digits N hne hN]
    · rw [toRat_roundQ_of_le false (decVal N) hb]
      simp
  · intro v hv
    simp only [Metric.SetFields, hm, fieldValue, reBytesFindString_nil_of_no_match v hv]
    rfl

theorem no_byte_count_in_short_text : ¬ hasByteCount "n/a".toList := by
  rintro ⟨pre, ds, post, _, _, h3⟩
  have := congrArg List.length h3
  simp at this
  omega

/-- C7, witness: the byteSize spec of `alloc` with the raw values
`123456 bytes` and `n/a`. -/
theorem C7_byteSize_exact_up_to_2_pow_53_witness :
    (decVal "123456".toList ≤ 2 ^ 53 ∧ ¬ hasByteCount "n/a".toList) ∧
    (∃ v : F64, (Metric.SetFields ⟨Kind.bytes, "gauge".toList, "go_memstats_alloc_bytes".toList, []⟩
        ("123456".toList ++ " bytes".toList)).Fields = [("gauge".toList, v)] ∧
      F64.toRat v = some (decVal "123456".toList : ℚ)) ∧
    (Metric.SetFields ⟨Kind.bytes, "gauge".toList, "go_memstats_alloc_bytes".toList, []⟩
        "n/a".toList).Fields = [("gauge".toList, F64.zero)] :=
  ⟨⟨by decide, no_byte_count_in_short_text⟩,
   (C7_byteSize_exact_up_to_2_pow_53
      ⟨Kind.bytes, "gauge".toList, "go_memstats_alloc_bytes".toList, []⟩ rfl).1
      "123456".toList (by decide) (by decide) (by decide),
   (C7_byteSize_exact_up_to_2_pow_53
      ⟨Kind.bytes, "gauge".toList, "go_memstats_alloc_bytes".toList, []⟩ rfl).2
      "n/a".toList no_byte_count_in_short_text⟩

/-- C7, counterexample: the raw value `9007199254740993 bytes` is stored by
a byteSize spec as the float `2^53 = 9007199254740992`, not as the number
`9007199254740993` of the text. -/
theorem C7_byteSize_not_exact_beyond_2_pow_53 :
    ¬ (∀ (m : Metric) (N : Str), m.Typ = Kind.bytes → N ≠ [] → (∀ c ∈ N, isDigit c = true) →
        ∃ v : F64, (m.SetFields (N ++ " bytes".toList)).Fields = [(m.FieldsKey, v)] ∧
          F64.toRat v = some (decVal N : ℚ)) := by
  intro h
  obtain ⟨v, hv, hr⟩ := h ⟨Kind.bytes, "gauge".toList, "go_memstats_alloc_bytes".toList, []⟩
    "9007199254740993".toList rfl (by decide) (by decide)
  have e : (Metric.SetFields ⟨Kind.bytes, "gauge".toList, "go_memstats_alloc_bytes".toList, []⟩
      ("9007199254740993".toList ++ " bytes".toList)).Fields
        = [("gauge".toList, F64.fin false 1 53)] := by decide
  rw [e] at hv
  have hv2 : v = F64.fin false 1 53 := by
    have := List.head_eq_of_cons_eq hv
    exact (Prod.mk.inj this).2.symm
  subst hv2
  have hd : decVal "9007199254740993".toList = 9007199254740993 := by decide
  rw [hd] at hr
  norm_num [F64.toRat] at hr

/-- C8 (as amended): for every decimal integer string `s` (an optional sign
followed by one or more decimal digits) that denotes an integer `z` with
`|z| ≤ 2^53`, `SetFields` on an integerCount spec stores under `FieldsKey`
the float whose value is exactly `z`. -/
theorem C8_integerCount_exact_up_to_2_pow_53 (m : Metric) (s : Str) (z : Int)
    (hm : m.Typ = Kind.int) (hs : decimalInt s = some z) (hb : |z| ≤ 2 ^ 53) :
    ∃ v : F64, (m.SetFields s).Fields = [(m.FieldsKey, v)] ∧ F64.toRat v = some (z : ℚ) := by
  obtain ⟨neg, N, hz, hv⟩ := fieldValue_decimalInt s z hs
  refine ⟨fieldValue Kind.int s, by simp [Metric.SetFields, hm], ?_⟩
  rw [hv]
  exact abs_roundQ_exact neg (decVal N) z hz hb

/-- C8, witness: the integerCount spec of `num-gc` and the text `-42`. -/
theorem C8_integerCount_exact_up_to_2_pow_53_witness :
    decimalInt "-42".toList = some (-42) ∧ |(-42 : Int)| ≤ 2 ^ 53 ∧
    ∃ v : F64, (Metric.SetFields ⟨Kind.int, "count".toList, "go_gc_duration_seconds".toList, []⟩
        "-42".toList).Fields = [("count".toList, v)] ∧ F64.toRat v = some ((-42 : Int) : ℚ) :=
  ⟨by decide, by decide,
    C8_integerCount_exact_up_to_2_pow_53
      ⟨Kind.int, "count".toList, "go_gc_duration_seconds".toList, []⟩ "-42".toList (-42)
      rfl (by decide) (by decide)⟩

/-- C8, counterexample: the decimal integer string `9007199254740993`
(`2^53 + 1`) is stored as the float `2^53 = 9007199254740992`, which is not
the integer the string denotes. -/
theorem C8_integerCount_not_exact_beyond_2_pow_53 :
    ¬ (∀ (m : Metric) (s : Str) (z : Int), m.Typ = Kind.int → decimalInt s = some z →
        ∃ v : F64, (m.SetFields s).Fields = [(m.FieldsKey, v)] ∧ F64.toRat v = some (z : ℚ)) := by
  intro h
  obtain ⟨v, hv, hr⟩ := h ⟨Kind.int, "gauge".toList, "go_goroutines".toList, []⟩
    "9007199254740993".toList 9007199254740993 rfl (by decide)
  have e : (Metric.SetFields ⟨Kind.int, "gauge".toList, "go_goroutines".toList, []⟩
      "9007199254740993".toList).Fields = [("gauge".toList, F64.fin false 1 53)] := by decide
  rw [e] at hv
  have hv2 : v = F64.fin false 1 53 := by
    have := List.head_eq_of_cons_eq hv
    exact (Prod.mk.inj this).2.symm
  subst hv2
  norm_num [F64.toRat] at hr

/-- C9: `SetFields` on a duration spec stores `1.5` for the raw value
`1500ms` and `2.0` for the raw value `2s`: the text is parsed to whole
nanoseconds (`1500000000` and `2000000000`), converted to a float and
divided by `1000.` three times. -/
theorem C9_duration_to_seconds (key name : Str) (fields : Fields) :
    (Metric.SetFields ⟨Kind.duration, key, name, fields⟩ "1500ms".toList).Fields
        = [(key, F64.fin false 3 (-1))] ∧
    F64.toRat (F64.fin false 3 (-1)) = some (3 / 2) ∧
    (Metric.SetFields ⟨Kind.duration, key, name, fields⟩ "2s".toList).Fields
        = [(key, F64.fin false 1 1)] ∧
    F64.toRat (F64.fin false 1 1) = some 2 ∧
    ParseDuration "1500ms".toList = some 1500000000 ∧
    ParseDuration "2s".toList = some 2000000000 ∧
    (∀ v : Str, fieldValue Kind.duration v =
      F64.div (F64.div (F64.div (F64.ofInt ((ParseDuration v).getD 0)) (F64.ofNat 1000))
        (F64.ofNat 1000)) (F64.ofNat 1000)) := by
  refine ⟨rfl, by norm_num [F64.toRat], rfl, by norm_num [F64.toRat], by decide, by decide, ?_⟩
  intro v
  have h : F64.ofNat 1000 = thousand := by decide
  rw [h]
  rfl

/-- C10: `SetFields` on a timestamp spec with the raw value
`2023-01-02 03:04:05.5 +0000 UTC` stores `1672628645.5`: the parsed time
has the epoch time `1672628645500000000` in nanoseconds, which is converted
to a float and divided by `1000.` three times, the half second retained. -/
theorem C10_timestamp_to_epoch_seconds (key name : Str) (fields : Fields) :
    (Metric.SetFields ⟨Kind.time, key, name, fields⟩
        "2023-01-02 03:04:05.5 +0000 UTC".toList).Fields
        = [(key, F64.fin false 3345257291 (-1))] ∧
    F64.toRat (F64.fin false 3345257291 (-1)) = some 1672628645.5 ∧
    timeParse "2023-01-02 03:04:05.5 +0000 UTC".toList = some ⟨1672628645, 500000000⟩ ∧
    (Time.mk 1672628645 500000000).UnixNano = 1672628645500000000 ∧
    (∀ v : Str, fieldValue Kind.time v =
      F64.div (F64.div (F64.div (F64.ofInt ((timeParse v).getD Time.zeroTime).UnixNano)
        (F64.ofNat 1000)) (F64.ofNat 1000)) (F64.ofNat 1000)) := by
  refine ⟨rfl, by norm_num [F64.toRat], by decide, by decide, ?_⟩
  intro v
  have h : F64.ofNat 1000 = thousand := by decide
  rw [h]
  rfl

/-- C11, the failing input: the text `not a time` does not match the layout,
and a timestamp spec stores for it not `0` but `-6795364578.871345…`: the
zero `Time` that `time.Parse` returns with its error has the `UnixNano`
`-6795364578871345152`, which is divided by `1000.` three times.  (An
integerCount spec stores `0` for `abc`.) -/
theorem C11_rejected_timestamp_is_not_zero (key name : Str) (fields : Fields) :
    timeParse "not a time".toList = none ∧
    Time.zeroTime.UnixNano = -6795364578871345152 ∧
    (Metric.SetFields ⟨Kind.time, key, name, fields⟩ "not a time".toList).Fields
      = [(key, F64.fin true 7125456208654599 (-20))] ∧
    F64.toRat (F64.fin true 7125456208654599 (-20)) = some (-(7125456208654599 : ℚ) / 2 ^ 20) ∧
    F64.fin true 7125456208654599 (-20) ≠ F64.zero ∧
    (Metric.SetFields ⟨Kind.int, key, name, fields⟩ "abc".toList).Fields = [(key, F64.zero)] := by
  refine ⟨by decide, by decide, rfl, ?_, by decide, rfl⟩
  norm_num [F64.toRat]

/-- C12, the failing input: the first invocation of `gops memstats` fails
with `exit status 1` and `ps` reports the process absent.  The run ends in
the `log.Fatal` of `execGops`, with exit status `1` and the cause logged,
not with exit status `0` and no error; the liveness check is never made.
No batch is written. -/
theorem C12_failed_gops_of_absent_process_exits_1 (fuel : Nat) :
    _main ⟨1234, "localhost:8086".toList, "db".toList⟩
        (steadyWorld ⟨[], some "exit status 1".toList⟩ ⟨[], none⟩ false) (fuel + 1)
      = ([Event.newHTTPClient "http://localhost:8086".toList, Event.newBatchPoints "db".toList,
          Event.sleep, Event.gops "memstats".toList 1234],
         Ending.fatal "exit status 1".toList) ∧
    (Ending.fatal "exit status 1".toList).exitStatus = some 1 ∧
    (Ending.fatal "exit status 1".toList).logged = some "exit status 1".toList := by
  refine ⟨?_, rfl, rfl⟩
  rfl

/-- C13, the failing input: an invocation fails with `exit status 1` while
`ps` reports the process present.  `_main` does not return: the run ends in
the `log.Fatal` of `execGops`, which logs the cause alone, without
`gops memstats: ` or `gops stats: ` before it. -/
theorem C13_failed_gops_of_present_process_is_fatal (fuel : Nat) :
    _main ⟨1234, "localhost:8086".toList, "db".toList⟩
        (steadyWorld ⟨[], some "exit status 1".toList⟩ ⟨[], none⟩ true) (fuel + 1)
      = ([Event.newHTTPClient "http://localhost:8086".toList, Event.newBatchPoints "db".toList,
          Event.sleep, Event.gops "memstats".toList 1234],
         Ending.fatal "exit status 1".toList) ∧
    _main ⟨1234, "localhost:8086".toList, "db".toList⟩
        (steadyWorld ⟨"num-gc: 3".toList, none⟩ ⟨[], some "exit status 1".toList⟩ true) (fuel + 1)
      = ([Event.newHTTPClient "http://localhost:8086".toList, Event.newBatchPoints "db".toList,
          Event.sleep, Event.gops "memstats".toList 1234, Event.gops "stats".toList 1234],
         Ending.fatal "exit status 1".toList) ∧
    (Ending.fatal "exit status 1".toList).logged = some "exit status 1".toList ∧
    Ending.fatal "exit status 1".toList
      ≠ Ending.returned 2 (some "gops memstats: exit status 1".toList) := by
  refine ⟨rfl, rfl, rfl, by decide⟩

/-- C14, the failing input: two rounds in which `gops memstats` prints
`num-gc: 3` and `gops stats` prints `goroutines: 5`.  The batch written in
the second round holds the two Points of the first round before the two of
the second: `bp` is made once before the loop, and `bp.AddPoints` only
adds to it. -/
theorem C14_second_batch_repeats_first_cycle :
    writes (_main ⟨1234, "localhost:8086".toList, "db".toList⟩
        (steadyWorld ⟨"num-gc: 3".toList, none⟩ ⟨"goroutines: 5".toList, none⟩ true) 2).1
      = [[some ⟨gcName, [("host".toList, "h".toList)], [("count".toList, F64.ofNat 3)], 1⟩,
          some ⟨"go_goroutines".toList, [("host".toList, "h".toList)],
            [("gauge".toList, F64.ofNat 5)], 50⟩],
         [some ⟨gcName, [("host".toList, "h".toList)], [("count".toList, F64.ofNat 3)], 1⟩,
          some ⟨"go_goroutines".toList, [("host".toList, "h".toList)],
            [("gauge".toList, F64.ofNat 5)], 50⟩,
          some ⟨gcName, [("host".toList, "h".toList)], [("count".toList, F64.ofNat 3)], 101⟩,
          some ⟨"go_goroutines".toList, [("host".toList, "h".toList)],
            [("gauge".toList, F64.ofNat 5)], 150⟩]] := by
  decide

/-- C15 (as amended): for every configuration in which the target process
identifier is zero, or the sink address is empty, or the database name is
empty, `_main` returns at once with the exit code `2`: it shows the usage
and invokes nothing else, neither the client, nor a sleep, nor `gops`, nor
`ps`. -/
theorem C15_incomplete_configuration_returns_at_once (cfg : Config) (w : World) (fuel : Nat)
    (h : cfg.proc = 0 ∨ cfg.host = [] ∨ cfg.database = []) :
    _main cfg w fuel = ([Event.usage], Ending.returned 2 (some "unkown error".toList)) ∧
    (_main cfg w fuel).2.exitStatus = some 2 := by
  have e : _main cfg w fuel = ([Event.usage], Ending.returned 2 (some "unkown error".toList)) := by
    simp only [_main, h, if_true]
  rw [e]
  exact ⟨rfl, rfl⟩

/-- C15, witness: no process identifier given (the flag default `0`). -/
theorem C15_incomplete_configuration_returns_at_once_witness :
    ((0 : Int) = 0 ∨ "localhost:8086".toList = [] ∨ "db".toList = []) ∧
    _main ⟨0, "localhost:8086".toList, "db".toList⟩
        (steadyWorld ⟨"num-gc: 3".toList, none⟩ ⟨"goroutines: 5".toList, none⟩ true) 3
      = ([Event.usage], Ending.returned 2 (some "unkown error".toList)) :=
  ⟨Or.inl rfl,
   (C15_incomplete_configuration_returns_at_once ⟨0, "localhost:8086".toList, "db".toList⟩
      (steadyWorld ⟨"num-gc: 3".toList, none⟩ ⟨"goroutines: 5".toList, none⟩ true) 3
      (Or.inl rfl)).1⟩

/-- C15, counterexample: with the process identifier `-1` the check
`*proc == 0` passes and the loop is entered: the client is made, the run
sleeps and invokes `gops memstats -1`. -/
theorem C15_negative_pid_enters_loop :
    ¬ (∀ (cfg : Config) (w : World) (fuel : Nat),
        (cfg.proc ≤ 0 ∨ cfg.host = [] ∨ cfg.database = []) →
        Event.sleep ∉ (_main cfg w fuel).1 ∧
          ∃ exitCode err, (_main cfg w fuel).2 = Ending.returned exitCode err ∧ exitCode ≠ 0) := by
  intro h
  have h1 := (h ⟨-1, "localhost:8086".toList, "db".toList⟩
    (steadyWorld ⟨"num-gc: 3".toList, none⟩ ⟨"goroutines: 5".toList, none⟩ true) 1
    (Or.inl (by decide))).1
  have e : (_main ⟨-1, "localhost:8086".toList, "db".toList⟩
      (steadyWorld ⟨"num-gc: 3".toList, none⟩ ⟨"goroutines: 5".toList, none⟩ true) 1).1
      = [Event.newHTTPClient "http://localhost:8086".toList, Event.newBatchPoints "db".toList,
          Event.sleep, Event.gops "memstats".toList (-1), Event.gops "stats".toList (-1),
          Event.write
            [some ⟨gcName, [("host".toList, "h".toList)], [("count".toList, F64.ofNat 3)], 1⟩,
             some ⟨"go_goroutines".toList, [("host".toList, "h".toList)],
               [("gauge".toList, F64.ofNat 5)], 50⟩]] := by decide
  rw [e] at h1
  exact h1 (by simp)

/-- C16: in `MemMetrics` exactly two specs carry the output metric name
`go_gc_duration_seconds`, `gc-pause` (duration, sub-field `sum`) and `num-gc`
(integerCount, sub-field `count`), with distinct sub-field keys; every other
output metric name of `MemMetrics` is carried by one spec only; and no two
specs of `StatsMetrics` share an output metric name. -/
theorem C16_only_gc_family_shares_a_name :
    MemMetrics.filter (fun e => e.2.Name = gcName)
      = [("gc-pause".toList, ⟨Kind.duration, "sum".toList, gcName, []⟩),
         ("num-gc".toList, ⟨Kind.int, "count".toList, gcName, []⟩)] ∧
    "sum".toList ≠ "count".toList ∧
    (∀ e ∈ MemMetrics, e.2.Name ≠ gcName →
      (MemMetrics.filter (fun x => x.2.Name = e.2.Name)).length = 1) ∧
    (MemMetrics.map Prod.fst).Nodup ∧
    (StatsMetrics.map (fun e => e.2.Name)).Nodup ∧
    (StatsMetrics.map Prod.fst).Nodup := by
  refine ⟨by decide, by decide, by decide, by decide, by decide, by decide⟩

/-- C17, the failing input: for the one line `mallocs: NaN` the result of
`memstatsPoints` has no length and no last entry: the call panics on the
nil Point of the refused value.  (For the empty list the result is the one
entry built from the empty field map.) -/
theorem C17_no_result_for_NaN_line (hostname : Str) (now : Nat → Nat) :
    matched MemMetrics ["mallocs: NaN".toList]
      = [⟨Kind.int, "counter".toList, "go_memstats_mallocs_total".toList,
          [("counter".toList, F64.nan)]⟩] ∧
    memstatsPoints hostname now ["mallocs: NaN".toList] = Outcome.panics ∧
    memstatsPoints hostname now [] = Outcome.returns [NewPoint gcName (hostTags hostname) [] (now 0)] :=
  ⟨by decide, rfl, rfl⟩

/-- C18 (as amended): for every raw value `pre ++ N ++ " bytes" ++ suf`, where
`N` is a non-empty string of decimal digits that denotes a number of at most
`2^53`, `pre` does not end in a digit and `pre ++ N` has no digits followed
by `" bytes"`, the leftmost match of `reBytes` is `N ++ " bytes"` and
`SetFields` on a byteSize spec stores the number `N`, whatever `pre` and
`suf` are; so `1.23MB (1289712 bytes)` gives `1289712`. -/
theorem C18_byteSize_from_leftmost_match (m : Metric) (pre N suf : Str)
    (hm : m.Typ = Kind.bytes) (hne : N ≠ []) (hN : ∀ c ∈ N, isDigit c = true)
    (hlast : ∀ c, pre.getLast? = some c → isDigit c = false)
    (hno : ¬ hasByteCount (pre ++ N)) (hb : decVal N ≤ 2 ^ 53) :
    reBytesFindString (pre ++ N ++ " bytes".toList ++ suf) = N ++ " bytes".toList ∧
    (∃ v : F64, (m.SetFields (pre ++ N ++ " bytes".toList ++ suf)).Fields = [(m.FieldsKey, v)] ∧
      F64.toRat v = some (decVal N : ℚ)) ∧
    (Metric.SetFields ⟨Kind.bytes, "gauge".toList, "go_memstats_alloc_bytes".toList, []⟩
        "1.23MB (1289712 bytes)".toList).Fields = [("gauge".toList, F64.ofNat 1289712)] ∧
    F64.toRat (F64.ofNat 1289712) = some 1289712 := by
  have hf := reBytesFindString_leftmost pre N suf hne hN hlast hno
  refine ⟨hf, ⟨F64.roundQ false (decVal N) 1, ?_, ?_⟩, by decide, ?_⟩
  · simp only [Metric.SetFields, hm, fieldValue, hf, splitSpaceHead_digits N hN,
      ParseFloat_digits N hne hN]
  · rw [toRat_roundQ_of_le false (decVal N) hb]
    simp
  · have : F64.ofNat 1289712 = F64.fin false 80607 4 := by decide
    rw [this]
    norm_num [F64.toRat]

/-- C18, witness: the byteSize spec of `alloc` and the raw value
`1.23MB (1289712 bytes)`, that is `pre = "1.23MB ("`, `N = "1289712"` and
`suf = ")"`. -/
theorem C18_byteSize_from_leftmost_match_witness :
    ¬ hasByteCount ("1.23MB (".toList ++ "1289712".toList) ∧ decVal "1289712".toList ≤ 2 ^ 53 ∧
    reBytesFindString ("1.23MB (".toList ++ "1289712".toList ++ " bytes".toList ++ ")".toList)
      = "1289712".toList ++ " bytes".toList ∧
    ∃ v : F64, (Metric.SetFields ⟨Kind.bytes, "gauge".toList, "go_memstats_alloc_bytes".toList, []⟩
        ("1.23MB (".toList ++ "1289712".toList ++ " bytes".toList ++ ")".toList)).Fields
          = [("gauge".toList, v)] ∧
      F64.toRat v = some (decVal "1289712".toList : ℚ) :=
  have h := C18_byteSize_from_leftmost_match
    ⟨Kind.bytes, "gauge".toList, "go_memstats_alloc_bytes".toList, []⟩
    "1.23MB (".toList "1289712".toList ")".toList rfl (by decide) (by decide)
    (fun c hc => last_is_paren "1.23MB ".toList c hc) no_byte_count_before_unit.1 (by decide)
  ⟨no_byte_count_before_unit.1, by decide, h.1, h.2.1⟩

/-- C18, counterexample: in `8.00PB (9007199254740993 bytes)` the leftmost
match is `9007199254740993 bytes`, but a byteSize spec stores the float
`2^53 = 9007199254740992`, not the number `9007199254740993`. -/
theorem C18_byteSize_not_exact_beyond_2_pow_53 :
    ¬ (∀ (m : Metric) (pre N suf : Str), m.Typ = Kind.bytes → N ≠ [] →
        (∀ c ∈ N, isDigit c = true) → (∀ c, pre.getLast? = some c → isDigit c = false) →
        ¬ hasByteCount (pre ++ N) →
        ∃ v : F64, (m.SetFields (pre ++ N ++ " bytes".toList ++ suf)).Fields
            = [(m.FieldsKey, v)] ∧ F64.toRat v = some (decVal N : ℚ)) := by
  intro h
  obtain ⟨v, hv, hr⟩ := h ⟨Kind.bytes, "gauge".toList, "go_memstats_alloc_bytes".toList, []⟩
    "8.00PB (".toList "9007199254740993".toList ")".toList rfl (by decide) (by decide)
    (fun c hc => last_is_paren "8.00PB ".toList c hc) no_byte_count_before_unit.2
  have e : (Metric.SetFields ⟨Kind.bytes, "gauge".toList, "go_memstats_alloc_bytes".toList, []⟩
      ("8.00PB (".toList ++ "9007199254740993".toList ++ " bytes".toList ++ ")".toList)).Fields
        = [("gauge".toList, F64.fin false 1 53)] := by decide
  rw [e] at hv
  have hv2 : v = F64.fin false 1 53 := by
    have := List.head_eq_of_cons_eq hv
    exact (Prod.mk.inj this).2.symm
  subst hv2
  have hd : decVal "9007199254740993".toList = 9007199254740993 := by decide
  rw [hd] at hr
  norm_num [F64.toRat] at hr

end InfluxGops
